import Mathlib

/-!
# Verification of the B-tree core (b-tree.c)

Shallow embedding of the B-tree implementation in
`src/02-datastructures-java/11-self-balancing-bst/b-tree-c/b-tree.c`.

A C node carries fixed-capacity arrays `keys[0..2t-2]`, `children[0..2t-1]`
and a count `n`; only `keys[0..n-1]` (and, for internal nodes,
`children[0..n]`) are visible.  The embedding represents exactly the visible
region: a node is a list of keys, a list of children (empty for leaves,
where the C array holds only NULLs) and the leaf flag; `n` is the key-list
length.  Array writes inside the visible region become list operations
(`set`, `insertIdx`, `eraseIdx`, `take`, `drop`, append).  Where the C code
reads memory that is out of the visible region or dereferences a pointer
that can be NULL only on trees that violate the representation (undefined
behaviour in C), the embedding takes a harmless default; every theorem that
depends on such a spot carries hypotheses confining it to the defined cases.
Allocation failure (`malloc` returning NULL) is not modelled.
-/

set_option maxHeartbeats 1600000

/-- A B-tree node: visible keys, visible children, leaf flag
(mirrors `struct BTreeNode`; `n` is the length of the key list). -/
inductive BTreeNode : Type where
  | mk (keys : List Int) (children : List BTreeNode) (is_leaf : Bool)

namespace BTreeNode

/-- The visible keys `keys[0..n-1]`. -/
def keys : BTreeNode → List Int
  | mk ks _ _ => ks

/-- The visible children `children[0..n]` (empty for a leaf). -/
def children : BTreeNode → List BTreeNode
  | mk _ cs _ => cs

/-- The `is_leaf` flag. -/
def is_leaf : BTreeNode → Bool
  | mk _ _ l => l

/-- The key count `n`. -/
def n (node : BTreeNode) : Nat := node.keys.length

/-- A default node used where C would read an out-of-range slot. -/
def nil : BTreeNode := mk [] [] true

@[simp] theorem keys_nil : nil.keys = [] := rfl

@[simp] theorem children_nil : nil.children = [] := rfl

@[simp] theorem is_leaf_nil : nil.is_leaf = true := rfl

@[simp] theorem keys_mk (ks : List Int) (cs : List BTreeNode) (l : Bool) :
    (mk ks cs l).keys = ks := rfl

@[simp] theorem children_mk (ks : List Int) (cs : List BTreeNode) (l : Bool) :
    (mk ks cs l).children = cs := rfl

@[simp] theorem is_leaf_mk (ks : List Int) (cs : List BTreeNode) (l : Bool) :
    (mk ks cs l).is_leaf = l := rfl

@[simp] theorem n_mk (ks : List Int) (cs : List BTreeNode) (l : Bool) :
    (mk ks cs l).n = ks.length := rfl

mutual

/-- Number of nodes in a subtree (termination measure for the recursive
operations; the C code has no such function). -/
def size : BTreeNode → Nat
  | mk _ cs _ => 1 + sizeL cs

/-- Total number of nodes in a list of subtrees. -/
def sizeL : List BTreeNode → Nat
  | [] => 0
  | c :: cs => size c + sizeL cs

end

theorem size_def (node : BTreeNode) : node.size = 1 + sizeL node.children := by
  cases node with
  | mk ks cs l => simp [size, children]

@[simp] theorem size_nil_eq : size nil = 1 := rfl

theorem size_pos (node : BTreeNode) : 0 < node.size := by
  cases node with
  | mk ks cs l => simp [size]

theorem sizeL_append (a b : List BTreeNode) :
    sizeL (a ++ b) = sizeL a + sizeL b := by
  induction a with
  | nil => simp [sizeL]
  | cons x xs ih => simp [sizeL, ih]; omega

theorem size_le_sizeL_of_mem {c : BTreeNode} {cs : List BTreeNode} (h : c ∈ cs) :
    c.size ≤ sizeL cs := by
  induction cs with
  | nil => cases h
  | cons x xs ih =>
    rcases List.mem_cons.mp h with h | h
    · subst h; simp [sizeL]
    · have := ih h
      simp only [sizeL]
      omega

theorem size_lt_of_mem {c node : BTreeNode} (h : c ∈ node.children) :
    c.size < node.size := by
  have h1 := size_le_sizeL_of_mem h
  rw [size_def node]
  omega

/-- Splitting off: the two distinct visible slots `i` and `j` of a child
list bound the list's total size from below. -/
theorem size_two_le_sizeL {cs : List BTreeNode} {i j : Nat} {x y : BTreeNode}
    (hij : i < j) (hi : cs.get? i = some x) (hj : cs.get? j = some y) :
    x.size + y.size ≤ sizeL cs := by
  induction cs generalizing i j with
  | nil => simp at hi
  | cons c cs ih =>
    cases j with
    | zero => omega
    | succ j' =>
      simp only [List.get?_cons_succ] at hj
      cases i with
      | zero =>
        simp only [List.get?_cons_zero, Option.some.injEq] at hi
        subst hi
        have := size_le_sizeL_of_mem (List.get?_mem hj)
        simp only [sizeL]
        omega
      | succ i' =>
        simp only [List.get?_cons_succ] at hi
        have := ih (by omega) hi hj
        simp only [sizeL]
        have := size_pos c
        omega

theorem size_le_sizeL_of_get? {cs : List BTreeNode} {i : Nat} {x : BTreeNode}
    (hi : cs.get? i = some x) : x.size ≤ sizeL cs :=
  size_le_sizeL_of_mem (List.get?_mem hi)

end BTreeNode

namespace BTreeNode

/-- `find_key(node, key)`: first index `idx` with `keys[idx] >= key`
(`n` if none), by the linear scan `while (idx < n && keys[idx] < key)`. -/
def find_key (node : BTreeNode) (key : Int) : Nat :=
  go node.keys
where
  /-- The scan over the key list. -/
  go : List Int → Nat
    | [] => 0
    | k :: ks => if k < key then go ks + 1 else 0

/-- `btree_search(node, key, &idx)`: scan for the first key `>= key`; equal
hit returns the node and index, a leaf miss returns NULL, otherwise recurse
into the child at the scan position.  The C scan loop is the same loop as
`find_key`. -/
def btree_search (node : BTreeNode) (key : Int) : Option (BTreeNode × Nat) :=
  let i := find_key node key
  if i < node.n ∧ node.keys.getD i 0 = key then
    some (node, i)
  else if node.is_leaf then
    none
  else
    match h2 : node.children.get? i with
    | some c => btree_search c key
    | none => none
termination_by node.size
decreasing_by
  exact size_lt_of_mem (List.get?_mem h2)

/-- `split_child(parent, i, t)`: split the full child `parent->children[i]`
(which holds `2t-1` keys) into its lower `t-1` keys (kept in place, the C
code just lowers `n` so the visible child-array prefix is the first `t`
entries) and a new right sibling holding the upper `t-1` keys (and, when
internal, the upper `t` children); the median key `keys[t-1]` of the full
child is inserted into `parent->keys[i]` and the sibling into
`parent->children[i+1]`, shifting later entries right. -/
def split_child (parent : BTreeNode) (i : Nat) (t : Nat) : BTreeNode :=
  let full_child := parent.children.getD i nil
  let new_child : BTreeNode :=
    mk (full_child.keys.drop t)
       (if full_child.is_leaf then [] else full_child.children.drop t)
       full_child.is_leaf
  let shrunk : BTreeNode :=
    mk (full_child.keys.take (t - 1))
       (if full_child.is_leaf then full_child.children
        else full_child.children.take t)
       full_child.is_leaf
  mk (parent.keys.insertIdx i (full_child.keys.getD (t - 1) 0))
     ((parent.children.set i shrunk).insertIdx (i + 1) new_child)
     parent.is_leaf

theorem sizeL_take_le (cs : List BTreeNode) (t : Nat) :
    sizeL (cs.take t) ≤ sizeL cs := by
  conv_rhs => rw [← List.take_append_drop t cs]
  rw [sizeL_append]; omega

theorem sizeL_drop_le (cs : List BTreeNode) (t : Nat) :
    sizeL (cs.drop t) ≤ sizeL cs := by
  conv_rhs => rw [← List.take_append_drop t cs]
  rw [sizeL_append]; omega

/-- A list slot that holds a value is inside the length bound. -/
theorem get?_some_lt {α : Type} {l : List α} {i : Nat} {x : α}
    (h : l.get? i = some x) : i < l.length := by
  by_contra hc
  rw [List.get?_eq_none.mpr (by omega)] at h
  cases h

/-- Any visible child of the result of `split_child` (for an in-range
split slot) is strictly smaller than the parent: the two split pieces are
fragments of the original full child and every other slot is unchanged. -/
theorem size_lt_of_mem_split_child {x parent : BTreeNode} {i t : Nat}
    (hi : i < parent.children.length)
    (hx : x ∈ (split_child parent i t).children) : x.size < parent.size := by
  have hc : parent.children.getD i nil ∈ parent.children := by
    rw [List.getD_eq_getElem _ _ hi]
    exact List.getElem_mem hi
  have hcsz := size_lt_of_mem hc
  have hcdef : size (parent.children.getD i nil)
      = 1 + sizeL (parent.children.getD i nil).children := size_def _
  unfold split_child at hx
  simp only [children_mk] at hx
  rcases (List.mem_insertIdx (by rw [List.length_set]; omega)).mp hx with hx | hx
  · -- x is the freshly allocated right half
    subst hx
    rw [size_def]
    simp only [children_mk]
    split
    · simp only [sizeL]; omega
    · have := sizeL_drop_le (parent.children.getD i nil).children t
      omega
  · rcases List.mem_or_eq_of_mem_set hx with hx | hx
    · exact size_lt_of_mem hx
    · -- x is the shrunken left half
      subst hx
      rw [size_def]
      simp only [children_mk]
      split
      · omega
      · have := sizeL_take_le (parent.children.getD i nil).children t
        omega

/-- `insert_non_full(node, key, t)`: at a leaf, shift keys larger than
`key` one slot right (scanning from the right) and place `key`; the scan
stops at the first key `<= key` from the right, so the insert position is
the length minus the longest all-greater suffix.  At an internal node the
same scan picks the descent child; a full child is split first and the
descent index advances past the promoted median when `key` exceeds it. -/
def insert_non_full (node : BTreeNode) (key : Int) (t : Nat) : BTreeNode :=
  let i := node.keys.length - (node.keys.reverse.takeWhile (fun k => key < k)).length
  if node.is_leaf then
    mk (node.keys.insertIdx i key) node.children true
  else
    match h2 : node.children.get? i with
    | none => node
    | some c =>
      if c.n = 2 * t - 1 then
        let node' := split_child node i t
        let i' := if node'.keys.getD i 0 < key then i + 1 else i
        match h3 : node'.children.get? i' with
        | none => node'
        | some c' =>
          mk node'.keys (node'.children.set i' (insert_non_full c' key t))
             node'.is_leaf
      else
        mk node.keys (node.children.set i (insert_non_full c key t)) node.is_leaf
termination_by node.size
decreasing_by
  · exact size_lt_of_mem_split_child (get?_some_lt h2) (List.get?_mem h3)
  · exact size_lt_of_mem (List.get?_mem h2)

end BTreeNode

namespace BTreeNode

/-- `get_predecessor(node, idx)`: from `children[idx]` follow the last
visible child (`children[cur->n]`) down to a leaf and take its last key. -/
def get_predecessor (node : BTreeNode) (idx : Nat) : Int :=
  go (node.children.getD idx nil)
where
  /-- The rightmost-descent loop. -/
  go (cur : BTreeNode) : Int :=
    if cur.is_leaf then cur.keys.getLastD 0
    else
      match h2 : cur.children.get? cur.n with
      | some c => go c
      | none => 0
  termination_by cur.size
  decreasing_by
    exact size_lt_of_mem (List.get?_mem h2)

/-- `get_successor(node, idx)`: from `children[idx+1]` follow the first
child down to a leaf and take its first key. -/
def get_successor (node : BTreeNode) (idx : Nat) : Int :=
  go (node.children.getD (idx + 1) nil)
where
  /-- The leftmost-descent loop. -/
  go (cur : BTreeNode) : Int :=
    if cur.is_leaf then cur.keys.headD 0
    else
      match h2 : cur.children.get? 0 with
      | some c => go c
      | none => 0
  termination_by cur.size
  decreasing_by
    exact size_lt_of_mem (List.get?_mem h2)

/-- `merge(node, idx, t)`: pull `keys[idx]` down between the two children
`children[idx]` and `children[idx+1]` (each holding `t-1` keys when called,
so the parent key lands at slot `t-1` of the left child and the right
child's keys land at slots `t..2t-2`, i.e. the three parts concatenate),
adopt the right child's children, and close the gaps in the parent. -/
def merged_child (node : BTreeNode) (idx : Nat) : BTreeNode :=
  let left := node.children.getD idx nil
  let right := node.children.getD (idx + 1) nil
  mk (left.keys ++ node.keys.getD idx 0 :: right.keys)
     (if left.is_leaf then left.children else left.children ++ right.children)
     left.is_leaf

/-- The parent after `merge`: `keys[idx]` and `children[idx+1]` are shifted
out, the merged child sits at `children[idx]`. -/
def merge (node : BTreeNode) (idx : Nat) (t : Nat) : BTreeNode :=
  mk (node.keys.eraseIdx idx)
     ((node.children.set idx (merged_child node idx)).eraseIdx (idx + 1))
     node.is_leaf

/-- `borrow_from_left(node, idx)`: rotate through the parent — the child
gains the parent key `keys[idx-1]` in front (and, when internal, the left
sibling's last child); the sibling's last key replaces the parent key. -/
def borrowL_child (node : BTreeNode) (idx : Nat) : BTreeNode :=
  let child := node.children.getD idx nil
  let sibling := node.children.getD (idx - 1) nil
  mk (node.keys.getD (idx - 1) 0 :: child.keys)
     (if child.is_leaf then child.children
      else sibling.children.getLastD nil :: child.children)
     child.is_leaf

/-- The left sibling after `borrow_from_left`: its last key and (when
internal) last child become invisible through the `n` decrement. -/
def borrowL_sibling (node : BTreeNode) (idx : Nat) : BTreeNode :=
  let sibling := node.children.getD (idx - 1) nil
  mk sibling.keys.dropLast
     (if sibling.is_leaf then sibling.children else sibling.children.dropLast)
     sibling.is_leaf

def borrow_from_left (node : BTreeNode) (idx : Nat) : BTreeNode :=
  mk (node.keys.set (idx - 1) ((node.children.getD (idx - 1) nil).keys.getLastD 0))
     ((node.children.set idx (borrowL_child node idx)).set (idx - 1)
       (borrowL_sibling node idx))
     node.is_leaf

/-- `borrow_from_right(node, idx)`: rotate symmetrically — the child gains
the parent key `keys[idx]` at the back (and, when internal, the right
sibling's first child); the sibling's first key replaces the parent key. -/
def borrowR_child (node : BTreeNode) (idx : Nat) : BTreeNode :=
  let child := node.children.getD idx nil
  let sibling := node.children.getD (idx + 1) nil
  mk (child.keys ++ [node.keys.getD idx 0])
     (if child.is_leaf then child.children
      else child.children ++ [sibling.children.headD nil])
     child.is_leaf

/-- The right sibling after `borrow_from_right`: keys and (when internal)
children shifted one slot left. -/
def borrowR_sibling (node : BTreeNode) (idx : Nat) : BTreeNode :=
  let sibling := node.children.getD (idx + 1) nil
  mk (sibling.keys.drop 1)
     (if sibling.is_leaf then sibling.children else sibling.children.drop 1)
     sibling.is_leaf

def borrow_from_right (node : BTreeNode) (idx : Nat) : BTreeNode :=
  mk (node.keys.set idx ((node.children.getD (idx + 1) nil).keys.headD 0))
     ((node.children.set idx (borrowR_child node idx)).set (idx + 1)
       (borrowR_sibling node idx))
     node.is_leaf

/-- `fill(node, idx, t)`: prefer borrowing from the left sibling, then the
right sibling, else merge — with the right sibling when `idx < n`,
otherwise with the left.  The sibling-existence bound (`idx-1` resp.
`idx+1` a visible slot) is implicit in C, where a missing sibling slot
would be a NULL dereference; the embedding makes it part of the guard. -/
def fill (node : BTreeNode) (idx : Nat) (t : Nat) : BTreeNode :=
  if 0 < idx ∧ idx - 1 < node.children.length ∧
      t ≤ (node.children.getD (idx - 1) nil).n then
    borrow_from_left node idx
  else if idx < node.n ∧ idx + 1 < node.children.length ∧
      t ≤ (node.children.getD (idx + 1) nil).n then
    borrow_from_right node idx
  else if idx < node.n then
    merge node idx t
  else
    merge node (idx - 1) t

theorem sizeL_eraseIdx_le (cs : List BTreeNode) (i : Nat) :
    sizeL (cs.eraseIdx i) ≤ sizeL cs := by
  induction cs generalizing i with
  | nil => simp [List.eraseIdx]
  | cons c cs ih =>
    cases i with
    | zero =>
      simp only [List.eraseIdx, sizeL]
      have := size_pos c
      omega
    | succ j =>
      simp only [List.eraseIdx, sizeL]
      have := ih j
      omega

theorem size_getD_mem {cs : List BTreeNode} {i : Nat} (hi : i < cs.length) :
    cs.getD i nil ∈ cs := by
  rw [List.getD_eq_getElem _ _ hi]
  exact List.getElem_mem hi

theorem get?_eq_getD_of_lt {cs : List BTreeNode} {i : Nat} (h : i < cs.length) :
    cs.get? i = some (cs.getD i nil) := by
  rw [List.getD_eq_getElem _ _ h, List.get?_eq_getElem?, List.getElem?_eq_getElem h]

/-- Every visible child of a `merge` result is strictly smaller than the
original node: the merged child recombines the two absorbed children. -/
theorem size_lt_of_mem_merge {x node : BTreeNode} {idx t : Nat}
    (hx : x ∈ (merge node idx t).children) : x.size < node.size := by
  unfold merge merged_child at hx
  simp only [children_mk] at hx
  have hx' := List.mem_of_mem_eraseIdx hx
  rcases List.mem_or_eq_of_mem_set hx' with hmem | hmerged
  · exact size_lt_of_mem hmem
  · by_cases hi : idx < node.children.length
    · have hlsz := size_le_sizeL_of_mem (size_getD_mem hi)
      have hldef := size_def (node.children.getD idx nil)
      subst hmerged
      rw [size_def]
      simp only [children_mk]
      rw [size_def node]
      by_cases hlf : (node.children.getD idx nil).is_leaf
      · rw [if_pos hlf]
        omega
      · rw [if_neg hlf, sizeL_append]
        by_cases hj : idx + 1 < node.children.length
        · have hrdef := size_def (node.children.getD (idx + 1) nil)
          have h2 := size_two_le_sizeL (show idx < idx + 1 by omega)
            (get?_eq_getD_of_lt hi) (get?_eq_getD_of_lt hj)
          omega
        · rw [List.getD_eq_default node.children nil
            (show node.children.length ≤ idx + 1 by omega)]
          simp only [children_nil, sizeL]
          omega
    · rw [List.set_eq_of_length_le (by omega)] at hx'
      exact size_lt_of_mem hx'

end BTreeNode

namespace BTreeNode

theorem sizeL_dropLast_le (cs : List BTreeNode) :
    sizeL cs.dropLast ≤ sizeL cs := by
  induction cs with
  | nil => simp [sizeL]
  | cons c cs ih =>
    cases cs with
    | nil => simp [sizeL, size_pos c, List.dropLast]
    | cons d ds =>
      simp only [List.dropLast, sizeL] at *
      omega

theorem sizeL_tail_le (cs : List BTreeNode) :
    sizeL (cs.drop 1) ≤ sizeL cs := sizeL_drop_le cs 1

theorem getLastD_mem_of_ne_nil {l : List BTreeNode} (h : l ≠ []) (d : BTreeNode) :
    l.getLastD d ∈ l := by
  induction l with
  | nil => exact absurd rfl h
  | cons x xs ih =>
    cases xs with
    | nil => simp [List.getLastD]
    | cons y ys =>
      have := ih (by simp)
      simp only [List.getLastD] at this ⊢
      exact List.mem_cons_of_mem x this

theorem headD_mem_of_ne_nil {l : List BTreeNode} (h : l ≠ []) (d : BTreeNode) :
    l.headD d ∈ l := by
  cases l with
  | nil => exact absurd rfl h
  | cons x xs => simp [List.headD]

/-- Every visible child of a `borrow_from_left` result (with the guard of
`fill` in force) is strictly smaller than the original node: the child
gains at most the sibling's last subtree, which the sibling loses. -/
theorem size_lt_of_mem_borrow_from_left {x node : BTreeNode} {idx : Nat}
    (h0 : 0 < idx) (h1 : idx - 1 < node.children.length)
    (hx : x ∈ (borrow_from_left node idx).children) : x.size < node.size := by
  unfold borrow_from_left borrowL_child borrowL_sibling at hx
  simp only [children_mk] at hx
  have hsib := size_getD_mem h1
  have hsibsz := size_le_sizeL_of_mem hsib
  have hsibdef := size_def (node.children.getD (idx - 1) nil)
  have hsibpos := size_pos (node.children.getD (idx - 1) nil)
  rw [size_def node]
  rcases List.mem_or_eq_of_mem_set hx with hx | hx
  · rcases List.mem_or_eq_of_mem_set hx with hx | hx
    · have := size_le_sizeL_of_mem hx
      omega
    · -- x is the enlarged child
      subst hx
      rw [size_def]
      simp only [children_mk]
      by_cases hi : idx < node.children.length
      · have hch := size_getD_mem hi
        have hchdef := size_def (node.children.getD idx nil)
        have h2 := size_two_le_sizeL (show idx - 1 < idx by omega)
          (get?_eq_getD_of_lt h1) (get?_eq_getD_of_lt hi)
        by_cases hlf : (node.children.getD idx nil).is_leaf
        · rw [if_pos hlf]
          omega
        · rw [if_neg hlf]
          simp only [sizeL]
          by_cases hemp : (node.children.getD (idx - 1) nil).children = []
          · rw [hemp]
            simp only [List.getLastD, sizeL, size_nil_eq]
            omega
          · have hb := size_le_sizeL_of_mem
              (getLastD_mem_of_ne_nil hemp nil)
            omega
      · rw [List.getD_eq_default node.children nil (show _ by omega)]
        simp only [keys_nil, children_nil, is_leaf_nil, if_pos rfl, sizeL]
        omega
  · -- x is the shrunken sibling
    subst hx
    rw [size_def]
    simp only [children_mk]
    by_cases hlf : (node.children.getD (idx - 1) nil).is_leaf
    · rw [if_pos hlf]
      omega
    · rw [if_neg hlf]
      have := sizeL_dropLast_le (node.children.getD (idx - 1) nil).children
      omega

/-- Every visible child of a `borrow_from_right` result (with the guard of
`fill` in force) is strictly smaller than the original node. -/
theorem size_lt_of_mem_borrow_from_right {x node : BTreeNode} {idx : Nat}
    (h1 : idx + 1 < node.children.length)
    (hx : x ∈ (borrow_from_right node idx).children) : x.size < node.size := by
  unfold borrow_from_right borrowR_child borrowR_sibling at hx
  simp only [children_mk] at hx
  have hi : idx < node.children.length := by omega
  have hsib := size_getD_mem h1
  have hsibsz := size_le_sizeL_of_mem hsib
  have hsibdef := size_def (node.children.getD (idx + 1) nil)
  have hsibpos := size_pos (node.children.getD (idx + 1) nil)
  have hch := size_getD_mem hi
  have hchdef := size_def (node.children.getD idx nil)
  have h2 := size_two_le_sizeL (show idx < idx + 1 by omega)
    (get?_eq_getD_of_lt hi) (get?_eq_getD_of_lt h1)
  rw [size_def node]
  rcases List.mem_or_eq_of_mem_set hx with hx | hx
  · rcases List.mem_or_eq_of_mem_set hx with hx | hx
    · have := size_le_sizeL_of_mem hx
      omega
    · -- x is the enlarged child
      subst hx
      rw [size_def]
      simp only [children_mk]
      by_cases hlf : (node.children.getD idx nil).is_leaf
      · rw [if_pos hlf]
        omega
      · rw [if_neg hlf, sizeL_append]
        simp only [sizeL]
        by_cases hemp : (node.children.getD (idx + 1) nil).children = []
        · rw [hemp]
          simp only [List.headD, sizeL, size_nil_eq]
          omega
        · have hb := size_le_sizeL_of_mem (headD_mem_of_ne_nil hemp nil)
          omega
  · -- x is the shrunken sibling
    subst hx
    rw [size_def]
    simp only [children_mk]
    by_cases hlf : (node.children.getD (idx + 1) nil).is_leaf
    · rw [if_pos hlf]
      omega
    · rw [if_neg hlf]
      have := sizeL_tail_le (node.children.getD (idx + 1) nil).children
      omega

/-- Every visible child of a `fill` result is strictly smaller than the
original node. -/
theorem size_lt_of_mem_fill {x node : BTreeNode} {idx t : Nat}
    (hx : x ∈ (fill node idx t).children) : x.size < node.size := by
  unfold fill at hx
  split at hx
  · next h => exact size_lt_of_mem_borrow_from_left h.1 h.2.1 hx
  · split at hx
    · next h => exact size_lt_of_mem_borrow_from_right h.2.1 hx
    · split at hx
      · exact size_lt_of_mem_merge hx
      · exact size_lt_of_mem_merge hx

end BTreeNode

namespace BTreeNode

/-- `delete_internal(node, key, t)`: the recursive delete dispatcher.
Case 1: key found in a leaf — shift it out.  Case 2: key found in an
internal node — replace by predecessor (left child rich), else successor
(right child rich), else merge the two minimal children and recurse.
Case 3: key absent here — ensure the descent child has at least `t` keys
(`fill`), then descend, stepping one slot left when the descent was aimed
at the last child and `fill` merged it into its left sibling (detected by
`idx > n` after the fill, written `node'.n < idx` here). -/
def delete_internal (node : BTreeNode) (key : Int) (t : Nat) : BTreeNode :=
  let idx := find_key node key
  if idx < node.n ∧ node.keys.getD idx 0 = key then
    if node.is_leaf then
      mk (node.keys.eraseIdx idx) node.children node.is_leaf
    else if t ≤ (node.children.getD idx nil).n then
      let pred := get_predecessor node idx
      match h2 : node.children.get? idx with
      | some c =>
        mk (node.keys.set idx pred)
           (node.children.set idx (delete_internal c pred t)) node.is_leaf
      | none => node
    else if t ≤ (node.children.getD (idx + 1) nil).n then
      let succ := get_successor node idx
      match h2 : node.children.get? (idx + 1) with
      | some c =>
        mk (node.keys.set idx succ)
           (node.children.set (idx + 1) (delete_internal c succ t)) node.is_leaf
      | none => node
    else
      let node' := merge node idx t
      match h2 : node'.children.get? idx with
      | some c =>
        mk node'.keys (node'.children.set idx (delete_internal c key t))
           node'.is_leaf
      | none => node'
  else
    if node.is_leaf then
      node
    else
      let is_last := idx = node.n
      let node' := if (node.children.getD idx nil).n < t then fill node idx t
                   else node
      let j := if is_last ∧ node'.n < idx then idx - 1 else idx
      match h2 : node'.children.get? j with
      | some c =>
        mk node'.keys (node'.children.set j (delete_internal c key t))
           node'.is_leaf
      | none => node'
termination_by node.size
decreasing_by
  · exact size_lt_of_mem (List.get?_mem h2)
  · exact size_lt_of_mem (List.get?_mem h2)
  · exact size_lt_of_mem_merge (List.get?_mem h2)
  · have hm := List.get?_mem h2
    unfold_let node' at hm
    split at hm
    · exact size_lt_of_mem_fill hm
    · exact size_lt_of_mem hm

end BTreeNode

open BTreeNode in
/-- The tree handle `struct BTree`: owning root and fixed minimum degree. -/
structure BTree where
  /-- The root node. -/
  root : BTreeNode
  /-- The minimum degree `t`. -/
  t : Nat

namespace BTree

open BTreeNode

/-- Sentinel for the validator's initial lower bound (C `INT_MIN`). -/
def INT_MIN : Int := -2147483648

/-- Sentinel for the validator's initial upper bound (C `INT_MAX`). -/
def INT_MAX : Int := 2147483647

/-- `btree_create(t)`: reject a minimum degree below 2, otherwise a tree
whose root is a single empty leaf.  `malloc` failure is not modelled. -/
def btree_create (t : Int) : Option BTree :=
  if t < 2 then none
  else some ⟨BTreeNode.mk [] [] true, t.toNat⟩

/-- `btree_insert(tree, key)`: if the root is full, make a new root with
the old root as sole child, split it, pick the side for `key` by comparing
with the promoted median, and insert there; otherwise insert into the
root directly. -/
def btree_insert (tree : BTree) (key : Int) : BTree :=
  let root := tree.root
  if root.n = 2 * tree.t - 1 then
    let new_root := split_child (BTreeNode.mk [] [root] false) 0 tree.t
    let i := if new_root.keys.getD 0 0 < key then 1 else 0
    match new_root.children.get? i with
    | some c =>
      ⟨BTreeNode.mk new_root.keys
        (new_root.children.set i (insert_non_full c key tree.t))
        new_root.is_leaf, tree.t⟩
    | none => ⟨new_root, tree.t⟩
  else
    ⟨insert_non_full root key tree.t, tree.t⟩

/-- `btree_delete(tree, key)`: no-op on an empty root; after the recursive
delete, an emptied non-leaf root is replaced by its child `children[0]`. -/
def btree_delete (tree : BTree) (key : Int) : BTree :=
  if tree.root.n = 0 then tree
  else
    let root' := delete_internal tree.root key tree.t
    if root'.n = 0 ∧ root'.is_leaf = false then
      ⟨root'.children.getD 0 nil, tree.t⟩
    else
      ⟨root', tree.t⟩

end BTree

namespace BTreeNode

/-- Lexicographic decrease for the mutual-recursion measures. -/
theorem lex_lt_of_le {a b i j : Nat} (hab : a ≤ b) (hij : i < j) :
    Prod.Lex (· < ·) (· < ·) (a, i) (b, j) := by
  rcases Nat.lt_or_ge a b with h | h
  · exact Prod.Lex.left _ _ h
  · have hz : a = b := by omega
    subst hz
    exact Prod.Lex.right _ hij

mutual

/-- `btree_traverse(node)`: in-order enumeration — for `i < n` first the
child `children[i]` (when internal) then `keys[i]`, finally `children[n]`.
The C function prints the keys; the embedding returns the printed list. -/
def btree_traverse : BTreeNode → List Int
  | mk ks cs l => if l then ks else travGo cs ks
termination_by node => (node.size, 0)
decreasing_by
  apply Prod.Lex.left
  rw [size_def]
  simp only [children_mk]
  omega

/-- The traversal loop over the paired children and keys of an internal
node (the final child follows the last key). -/
def travGo : List BTreeNode → List Int → List Int
  | [], ks => ks
  | c :: _, [] => btree_traverse c
  | c :: cs, k :: ks => btree_traverse c ++ k :: travGo cs ks
termination_by cs _ => (sizeL cs, 1)
decreasing_by
  · exact lex_lt_of_le (size_le_sizeL_of_mem (List.mem_cons_self c _)) (by omega)
  · exact lex_lt_of_le (size_le_sizeL_of_mem (List.mem_cons_self c cs)) (by omega)
  · apply Prod.Lex.left
    have := size_pos c
    simp only [sizeL]
    omega

end

/-- The loop of `btree_height`: depth of the leftmost descent
(`while (!node->is_leaf) node = node->children[0]`). -/
def height_from (node : BTreeNode) : Nat :=
  if node.is_leaf then 1
  else
    match h2 : node.children.get? 0 with
    | some c => 1 + height_from c
    | none => 1
termination_by node.size
decreasing_by
  exact size_lt_of_mem (List.get?_mem h2)

mutual

/-- `count_node(node)`: this node's key count plus, for internal nodes,
the counts of the visible children. -/
def count_node : BTreeNode → Nat
  | mk ks cs l => ks.length + (if l then 0 else countL cs)
termination_by node => (node.size, 0)
decreasing_by
  apply Prod.Lex.left
  rw [size_def]
  simp only [children_mk]
  omega

/-- Sum of `count_node` over a child list. -/
def countL : List BTreeNode → Nat
  | [] => 0
  | c :: cs => count_node c + countL cs
termination_by cs => (sizeL cs, 1)
decreasing_by
  · exact lex_lt_of_le (size_le_sizeL_of_mem (List.mem_cons_self c cs)) (by omega)
  · apply Prod.Lex.left
    have := size_pos c
    simp only [sizeL]
    omega

end

/-- The validator's per-node key check: every key strictly above the
running lower bound (initially the inherited `min`, then the previous
key, which folds the range check and the strict-ascent check of the C
loop into one pass) and strictly below the inherited `max`. -/
def keys_ok : List Int → Int → Int → Bool
  | [], _, _ => true
  | k :: ks, mn, mx => mn < k && k < mx && keys_ok ks k mx

mutual

/-- `validate_node(node, t, min, max, expected_depth, current_depth,
is_root)`: returns the common leaf depth of the subtree when valid, `-1`
when invalid.  Checks the key-count bounds (only the upper bound for the
root), the keys against the open range `(min, max)` and strict ascent,
and recurses over children with tightened ranges, threading the expected
leaf depth (`-1` until the first leaf fixes it). -/
def validate_node : BTreeNode → Nat → Int → Int → Int → Int → Bool → Int
  | node, t, mn, mx, exp, cur, isRoot =>
    if isRoot then
      if (2 * (t : Int) - 1) < (node.n : Int) then -1
      else validate_body node t mn mx exp cur
    else
      if (node.n : Int) < (t : Int) - 1 then -1
      else if (2 * (t : Int) - 1) < (node.n : Int) then -1
      else validate_body node t mn mx exp cur
termination_by node _ _ _ _ _ _ => (node.size, 1)
decreasing_by
  · exact Prod.Lex.right _ (by omega)
  · exact Prod.Lex.right _ (by omega)

/-- The part of `validate_node` after the count bounds: key checks, the
leaf depth check, and the child loop. -/
def validate_body : BTreeNode → Nat → Int → Int → Int → Int → Int
  | node, t, mn, mx, exp, cur =>
    if ¬ keys_ok node.keys mn mx then -1
    else if node.is_leaf then
      if exp ≠ -1 ∧ cur ≠ exp then -1 else cur
    else
      validate_kids node.children node.keys t mn mx exp cur
termination_by node _ _ _ _ _ => (node.size, 0)
decreasing_by
  apply Prod.Lex.left
  rw [size_def]
  omega

/-- The validator's child loop: child `i` is checked against the range
`(keys[i-1], keys[i])` (outer bounds at the ends); a missing child slot is
the C NULL-child error; the first leaf depth found becomes the expected
depth for the rest. -/
def validate_kids : List BTreeNode → List Int → Nat → Int → Int → Int → Int → Int
  | [], _, _, _, _, _, _ => -1
  | c :: _, [], t, mn, mx, ld, cur =>
    let d := validate_node c t mn mx ld (cur + 1) false
    if d = -1 then -1 else (if ld = -1 then d else ld)
  | c :: cs, k :: ks, t, mn, mx, ld, cur =>
    let d := validate_node c t mn k ld (cur + 1) false
    if d = -1 then -1
    else validate_kids cs ks t k mx (if ld = -1 then d else ld) cur
termination_by cs _ _ _ _ _ _ => (sizeL cs, 2)
decreasing_by
  · exact lex_lt_of_le (size_le_sizeL_of_mem (List.mem_cons_self c _)) (by omega)
  · exact lex_lt_of_le (size_le_sizeL_of_mem (List.mem_cons_self c cs)) (by omega)
  · apply Prod.Lex.left
    have := size_pos c
    simp only [sizeL]
    omega

end

end BTreeNode

namespace BTree

open BTreeNode

/-- `btree_validate(tree)`: an empty tree (empty leaf root) is valid,
otherwise run the recursive validator from the root with the sentinel
bounds, no expected depth, depth 0, and the root flag set. -/
def btree_validate (tree : BTree) : Bool :=
  if tree.root.n = 0 ∧ tree.root.is_leaf then true
  else validate_node tree.root tree.t INT_MIN INT_MAX (-1) 0 true ≠ -1

/-- `btree_height(tree)`: 0 for an empty root, else the length of the
leftmost descent. -/
def btree_height (tree : BTree) : Nat :=
  if tree.root.n = 0 then 0 else height_from tree.root

/-- `btree_count(tree)`: total number of visible keys. -/
def btree_count (tree : BTree) : Nat := count_node tree.root

end BTree

namespace BTreeNode

mutual

/-- Structural well-formedness of the embedding: a leaf has no visible
children, an internal node has exactly `n+1`; recursively so.  Every tree
that a C run can materialise satisfies this (it is the visible-region
representation invariant), and every operation preserves it. -/
def WF : BTreeNode → Prop
  | mk ks cs l => (if l then cs = [] else cs.length = ks.length + 1) ∧ WFL cs
termination_by node => (node.size, 0)
decreasing_by
  apply Prod.Lex.left
  rw [size_def]
  simp only [children_mk]
  omega

/-- `WF` for every node of a list. -/
def WFL : List BTreeNode → Prop
  | [] => True
  | c :: cs => WF c ∧ WFL cs
termination_by cs => (sizeL cs, 1)
decreasing_by
  · exact lex_lt_of_le (size_le_sizeL_of_mem (List.mem_cons_self c cs)) (by omega)
  · apply Prod.Lex.left
    have := size_pos c
    simp only [sizeL]
    omega

end

mutual

/-- The count-and-depth invariant of a subtree at uniform leaf depth `d`:
the node holds at most `2t-1` keys, a leaf has no children and depth 0,
an internal node has exactly `n+1` children, all at depth one less, each
child holding at least `t-1` keys.  (The node's own lower key bound is
imposed by the caller: `t-1` for non-roots via `ShapeL`.) -/
def Shape : Nat → Nat → BTreeNode → Prop
  | t, d, mk ks cs l =>
    ks.length ≤ 2 * t - 1 ∧
    (if l then cs = [] ∧ d = 0
     else cs.length = ks.length + 1 ∧ ∃ d0, d = d0 + 1 ∧ ShapeL t d0 cs)
termination_by _ _ node => (node.size, 0)
decreasing_by
  apply Prod.Lex.left
  rw [size_def]
  simp only [children_mk]
  omega

/-- `Shape` with the non-root lower key bound, for every node of a list. -/
def ShapeL : Nat → Nat → List BTreeNode → Prop
  | _, _, [] => True
  | t, d, c :: cs => (t - 1 ≤ c.n ∧ Shape t d c) ∧ ShapeL t d cs
termination_by _ _ cs => (sizeL cs, 1)
decreasing_by
  · exact lex_lt_of_le (size_le_sizeL_of_mem (List.mem_cons_self c cs)) (by omega)
  · apply Prod.Lex.left
    have := size_pos c
    simp only [sizeL]
    omega

end

end BTreeNode

namespace BTree

open BTreeNode

/-- The tree returned by `btree_create(2)`: a single empty leaf root. -/
def created2 : BTree := ⟨BTreeNode.mk [] [] true, 2⟩

/-- `created2` after `btree_insert(5)`. -/
def one5 : BTree := btree_insert created2 5

/-- `one5` after a second `btree_insert(5)` of the same key. -/
def two5 : BTree := btree_insert one5 5

/-- A tree whose root is an internal node with zero keys and a single
structurally valid leaf child (not producible by the public operations,
but accepted by the validator). -/
def emptyRootTree : BTree := ⟨BTreeNode.mk [] [BTreeNode.mk [5] [] true] false, 2⟩

end BTree

/-! ## Concrete evaluations -/

namespace BTree

open BTreeNode

theorem create2_eval : btree_create 2 = some created2 := by
  simp [btree_create, created2]

theorem one5_eval : one5 = ⟨BTreeNode.mk [5] [] true, 2⟩ := by
  simp [one5, created2, btree_insert, insert_non_full]

theorem two5_eval : two5 = ⟨BTreeNode.mk [5, 5] [] true, 2⟩ := by
  rw [two5, one5_eval]
  simp [btree_insert, insert_non_full, List.takeWhile, List.insertIdx]

theorem delete_two5_eval : btree_delete two5 5 = ⟨BTreeNode.mk [5] [] true, 2⟩ := by
  rw [two5_eval]
  simp [btree_delete, delete_internal, find_key, find_key.go, List.eraseIdx]

end BTree

namespace BTree

open BTreeNode

/-- C1: the claim says a second `btree_insert` of a key already present is
a no-op on `btree_count` and the in-order sequence.  The code has no
duplicate check: on the tree created with `btree_create(2)` after
inserting 5, inserting 5 again raises the count from 1 to 2 and the
in-order sequence from `[5]` to `[5, 5]`. -/
theorem insert_duplicate_changes_count_and_order :
    btree_create 2 = some created2 ∧
    btree_count one5 = 1 ∧ btree_traverse one5.root = [5] ∧
    btree_count two5 = 2 ∧ btree_traverse two5.root = [5, 5] := by
  refine ⟨create2_eval, ?_, ?_, ?_, ?_⟩
  · rw [one5_eval]; simp [btree_count, count_node]
  · rw [one5_eval]; simp [btree_traverse]
  · rw [two5_eval]; simp [btree_count, count_node]
  · rw [two5_eval]; simp [btree_traverse]

/-- C2: the claim says `btree_validate` holds after every operation of any
insert/delete sequence, duplicates included.  After the two-step sequence
`insert 5; insert 5` from `btree_create(2)` the validator already fails
(the root's keys `[5, 5]` are not strictly ascending). -/
theorem validate_fails_after_duplicate_insert :
    btree_create 2 = some created2 ∧
    btree_validate one5 = true ∧ btree_validate two5 = false := by
  refine ⟨create2_eval, ?_, ?_⟩
  · rw [one5_eval]
    simp [btree_validate, validate_node, validate_body, keys_ok, INT_MIN, INT_MAX]
  · rw [two5_eval]
    simp [btree_validate, validate_node, validate_body, keys_ok, INT_MIN, INT_MAX]

/-- C3: the claim says `btree_delete(tree, k)` followed by
`btree_search(tree->root, k)` yields NotFound in every reachable state.
In the reachable state `[5, 5]` (after inserting 5 twice), deleting 5
removes only one copy, and the search still finds the key. -/
theorem search_found_after_delete_in_reachable_state :
    btree_create 2 = some created2 ∧
    btree_delete two5 5 = ⟨BTreeNode.mk [5] [] true, 2⟩ ∧
    btree_search (btree_delete two5 5).root 5
      = some (BTreeNode.mk [5] [] true, 0) := by
  refine ⟨create2_eval, delete_two5_eval, ?_⟩
  rw [delete_two5_eval]
  simp [btree_search, find_key, find_key.go]

/-- C8: the claim says the in-order traversal of every reachable tree is
strictly ascending.  The reachable tree `[5, 5]` (insert 5 twice) has
traversal `[5, 5]`, which is not strictly ascending. -/
theorem traversal_not_ascending_in_reachable_state :
    btree_create 2 = some created2 ∧
    btree_traverse two5.root = [5, 5] ∧
    ¬ List.Pairwise (· < ·) (btree_traverse two5.root) := by
  refine ⟨create2_eval, ?_, ?_⟩ <;> rw [two5_eval] <;> simp [btree_traverse]

/-- C9: `btree_create(t)` fails exactly when `t < 2`; on success the tree
has minimum degree `t` and a single empty leaf root, and `btree_validate`
accepts it.  (`malloc` failure is outside the embedding.) -/
theorem btree_create_spec (t : Int) :
    (btree_create t = none ↔ t < 2) ∧
    (2 ≤ t →
      btree_create t = some ⟨BTreeNode.mk [] [] true, t.toNat⟩ ∧
      ((⟨BTreeNode.mk [] [] true, t.toNat⟩ : BTree)).t = t.toNat ∧
      (t.toNat : Int) = t ∧
      btree_validate ⟨BTreeNode.mk [] [] true, t.toNat⟩ = true) := by
  constructor
  · constructor
    · intro h
      by_contra hc
      unfold btree_create at h
      rw [if_neg hc] at h
      cases h
    · intro h
      unfold btree_create
      rw [if_pos h]
  · intro h
    refine ⟨?_, rfl, by omega, ?_⟩
    · unfold btree_create
      rw [if_neg (by omega : ¬ t < 2)]
    · simp [btree_validate]

/-- Witness for `btree_create_spec` at `t = 1` and `t = 3`. -/
theorem btree_create_spec_witness :
    (btree_create 1 = none) ∧
    (btree_create 3 = some ⟨BTreeNode.mk [] [] true, 3⟩ ∧
      btree_validate ⟨BTreeNode.mk [] [] true, 3⟩ = true) := by
  refine ⟨(btree_create_spec 1).1.mpr (by omega), ?_, ?_⟩
  · have h := ((btree_create_spec 3).2 (by omega)).1
    simpa using h
  · have h := ((btree_create_spec 3).2 (by omega)).2.2.2
    simpa using h

/-- C10: `btree_validate` checks only the upper key-count bound on the
root, so the tree whose root is an internal node with zero keys and one
structurally valid leaf child passes validation even though only an empty
leaf root should be allowed to have zero keys. -/
theorem validate_accepts_empty_internal_root :
    emptyRootTree.root.is_leaf = false ∧
    emptyRootTree.root.n = 0 ∧
    emptyRootTree.root.children = [BTreeNode.mk [5] [] true] ∧
    btree_validate ⟨BTreeNode.mk [5] [] true, 2⟩ = true ∧
    btree_validate emptyRootTree = true := by
  refine ⟨rfl, rfl, rfl, ?_, ?_⟩
  · simp [btree_validate, validate_node, validate_body, keys_ok, INT_MIN, INT_MAX]
  · simp [emptyRootTree, btree_validate, validate_node, validate_body,
      validate_kids, keys_ok, INT_MIN, INT_MAX]

/-- C6 (counterexample part): deleting the only key of a one-key tree
drops `btree_height` from 1 to 0 while the root stays the same leaf — the
root-replacement branch (which requires a non-leaf root) never runs, so
root replacement is not the only way the height decreases. -/
theorem height_drops_without_root_replacement :
    btree_create 2 = some created2 ∧
    btree_height one5 = 1 ∧
    btree_height (btree_delete one5 5) = 0 ∧
    (btree_delete one5 5).root.is_leaf = true ∧
    (btree_delete one5 5).root.n = 0 := by
  have hdel : btree_delete one5 5 = ⟨BTreeNode.mk [] [] true, 2⟩ := by
    rw [one5_eval]
    simp [btree_delete, delete_internal, find_key, find_key.go, List.eraseIdx]
  refine ⟨create2_eval, ?_, ?_, ?_, ?_⟩
  · rw [one5_eval]
    simp [btree_height, height_from]
  · rw [hdel]
    simp [btree_height]
  · rw [hdel]
    rfl
  · rw [hdel]
    rfl

end BTree

namespace BTreeNode

theorem get?_eq_some_getElem {α : Type} (l : List α) (i : Nat) (h : i < l.length) :
    l.get? i = some l[i] := by
  rw [List.get?_eq_getElem?, List.getElem?_eq_getElem h]

theorem getD_eq_of_get? {cs : List BTreeNode} {i : Nat} {c : BTreeNode}
    (h : cs.get? i = some c) : cs.getD i nil = c := by
  have h2 := get?_eq_getD_of_lt (get?_some_lt h)
  rw [h] at h2
  exact (Option.some.injEq _ _ ▸ h2).symm

/-- C5: under the preconditions that `parent->children[i]` holds exactly
`2t-1` keys and the parent has room, `split_child(parent, i, t)` leaves
the child with exactly its former lower `t-1` keys, allocates the sibling
at `children[i+1]` with the former upper `t-1` keys (plus the upper `t`
child references when the child is internal), puts the former median at
`parent->keys[i]`, shifts the later parent keys and children one slot
right, and increments `parent->n` by exactly 1. -/
theorem split_child_spec (parent : BTreeNode) (i t : Nat) (c : BTreeNode)
    (hc : parent.children.get? i = some c)
    (hfull : c.n = 2 * t - 1)
    (hroom : parent.n < 2 * t - 1)
    (ht : 2 ≤ t)
    (hi : i ≤ parent.n)
    (hlen : parent.children.length = parent.n + 1)
    (hcc : c.is_leaf = false → c.children.length = 2 * t) :
    (split_child parent i t).n = parent.n + 1 ∧
    (split_child parent i t).is_leaf = parent.is_leaf ∧
    (split_child parent i t).children.length = parent.n + 2 ∧
    (split_child parent i t).children.get? i
      = some (mk (c.keys.take (t - 1))
          (if c.is_leaf then c.children else c.children.take t) c.is_leaf) ∧
    (c.keys.take (t - 1)).length = t - 1 ∧
    (split_child parent i t).children.get? (i + 1)
      = some (mk (c.keys.drop t)
          (if c.is_leaf then [] else c.children.drop t) c.is_leaf) ∧
    (c.keys.drop t).length = t - 1 ∧
    (c.is_leaf = false → (c.children.drop t).length = t) ∧
    (split_child parent i t).keys.get? i = some (c.keys.getD (t - 1) 0) ∧
    c.keys.take (t - 1) ++ c.keys.getD (t - 1) 0 :: c.keys.drop t = c.keys ∧
    (∀ j, j < i → (split_child parent i t).keys.get? j = parent.keys.get? j) ∧
    (∀ j, i ≤ j → (split_child parent i t).keys.get? (j + 1) = parent.keys.get? j) ∧
    (∀ j, j < i → (split_child parent i t).children.get? j = parent.children.get? j) ∧
    (∀ j, i < j → (split_child parent i t).children.get? (j + 1)
      = parent.children.get? j) := by
  have hilen : i < parent.children.length := get?_some_lt hc
  have hgd : parent.children.getD i nil = c := getD_eq_of_get? hc
  have hkl : i ≤ parent.keys.length := hi
  have hsetlen : (parent.children.set i
      (mk (c.keys.take (t - 1))
        (if c.is_leaf then c.children else c.children.take t) c.is_leaf)).length
      = parent.children.length := by rw [List.length_set]
  unfold split_child
  rw [hgd]
  simp only [keys_mk, children_mk, is_leaf_mk, n_mk]
  refine ⟨?_, trivial, ?_, ?_, ?_, ?_, ?_, ?_, ?_, ?_, ?_, ?_, ?_, ?_⟩
  · rw [List.length_insertIdx i _ hkl]
    rfl
  · rw [List.length_insertIdx (i+1) _ (by omega), List.length_set]
    omega
  · rw [get?_eq_some_getElem _ i (by rw [List.length_insertIdx (i+1) _ (by omega)]; omega)]
    rw [List.getElem_insertIdx_of_lt _ _ _ _ (by omega) (by omega)]
    rw [List.getElem_set_self (by omega)]
  · rw [List.length_take]; unfold n at hfull; omega
  · rw [get?_eq_some_getElem _ (i+1) (by rw [List.length_insertIdx (i+1) _ (by omega)]; omega)]
    rw [List.getElem_insertIdx_self _ _ _ (by omega)]
  · rw [List.length_drop]; unfold n at hfull; omega
  · intro hlf
    rw [List.length_drop, hcc hlf]; omega
  · rw [get?_eq_some_getElem _ i (by rw [List.length_insertIdx i _ hkl]; omega)]
    rw [List.getElem_insertIdx_self _ _ _ hkl]
  · have h1 : t - 1 < c.keys.length := by unfold n at hfull; omega
    rw [List.getD_eq_getElem _ _ h1]
    conv_rhs => rw [← List.take_append_drop (t - 1) c.keys]
    congr 1
    rw [List.drop_eq_getElem_cons h1]
    congr 2
    omega
  · intro j hj
    by_cases hjr : j < parent.keys.length
    · rw [get?_eq_some_getElem _ j (by rw [List.length_insertIdx i _ hkl]; omega),
        get?_eq_some_getElem _ j hjr]
      rw [List.getElem_insertIdx_of_lt _ _ _ _ hj hjr]
    · omega
  · intro j hj
    by_cases hjr : j < parent.keys.length
    · obtain ⟨k, rfl⟩ : ∃ k, j = i + k := ⟨j - i, by omega⟩
      rw [get?_eq_some_getElem _ (i + k + 1)
          (by rw [List.length_insertIdx i _ hkl]; omega),
        get?_eq_some_getElem _ (i + k) hjr]
      rw [List.getElem_insertIdx_add_succ _ _ _ _ hjr]
    · rw [List.get?_eq_none.mpr (by rw [List.length_insertIdx i _ hkl]; omega),
        List.get?_eq_none.mpr (by omega)]
  · intro j hj
    rw [get?_eq_some_getElem _ j (by rw [List.length_insertIdx (i+1) _ (by omega)]; omega),
      get?_eq_some_getElem _ j (by omega)]
    rw [List.getElem_insertIdx_of_lt _ _ _ _ (by omega) (by rw [List.length_set]; omega)]
    rw [List.getElem_set_ne (by omega)]
  · intro j hj
    by_cases hjr : j < parent.children.length
    · obtain ⟨k, rfl⟩ : ∃ k, j = i + 1 + k := ⟨j - i - 1, by omega⟩
      rw [get?_eq_some_getElem _ (i + 1 + k + 1)
          (by rw [List.length_insertIdx (i+1) _ (by omega)]; rw [List.length_set]; omega),
        get?_eq_some_getElem _ (i + 1 + k) hjr]
      rw [List.getElem_insertIdx_add_succ _ _ _ _ (by rw [List.length_set]; omega)]
      rw [List.getElem_set_ne (by omega)]
    · rw [List.get?_eq_none.mpr (by rw [List.length_insertIdx (i+1) _ (by omega)]; rw [List.length_set]; omega),
        List.get?_eq_none.mpr (by omega)]

/-- Witness for `split_child_spec`: `t = 2`, a parent `[10]` with full
leaf child `[1 2 3]` and sibling `[20]`, split at slot 0. -/
theorem split_child_spec_witness :
    (split_child (mk [10] [mk [1, 2, 3] [] true, mk [20] [] true] false) 0 2).n = 2 ∧
    (split_child (mk [10] [mk [1, 2, 3] [] true, mk [20] [] true] false) 0 2).keys.get? 0
      = some 2 ∧
    (split_child (mk [10] [mk [1, 2, 3] [] true, mk [20] [] true] false) 0 2).children.get? 0
      = some (mk [1] [] true) ∧
    (split_child (mk [10] [mk [1, 2, 3] [] true, mk [20] [] true] false) 0 2).children.get? 1
      = some (mk [3] [] true) := by
  have h := split_child_spec (mk [10] [mk [1, 2, 3] [] true, mk [20] [] true] false)
    0 2 (mk [1, 2, 3] [] true) rfl rfl (by decide) (by omega) (by decide)
    (by decide) (by simp)
  obtain ⟨h1, -, -, h4, -, h6, -, -, h9, -⟩ := h
  simp only [keys_mk, is_leaf_mk, children_mk] at h4 h6 h9
  refine ⟨h1, ?_, ?_, ?_⟩
  · simpa using h9
  · simpa using h4
  · simpa using h6

end BTreeNode

/-! ## Traversal decomposition -/

namespace BTreeNode

@[simp] theorem traverse_leaf (ks : List Int) (cs : List BTreeNode) :
    btree_traverse (mk ks cs true) = ks := by
  simp [btree_traverse]

theorem traverse_internal (ks : List Int) (cs : List BTreeNode) :
    btree_traverse (mk ks cs false) = travGo cs ks := by
  simp [btree_traverse]

theorem traverse_def (node : BTreeNode) :
    btree_traverse node
      = if node.is_leaf then node.keys else travGo node.children node.keys := by
  cases node with
  | mk ks cs l => cases l <;> simp [btree_traverse]

/-- The traversal of an interleaving splits at a balanced prefix. -/
theorem travGo_append (A X : List BTreeNode) (K Y : List Int)
    (h : A.length = K.length) :
    travGo (A ++ X) (K ++ Y) = travGo A K ++ travGo X Y := by
  induction A generalizing K with
  | nil =>
    cases K with
    | nil => simp [travGo]
    | cons k K => simp at h
  | cons a A ih =>
    cases K with
    | nil => simp at h
    | cons k K =>
      simp only [List.cons_append, travGo]
      rw [ih _ (by simpa using h)]
      simp

/-- The traversal of an interleaving splits after a prefix that ends in a
child, the separating key in the middle. -/
theorem travGo_append_key (X X2 : List BTreeNode) (Y Y2 : List Int) (k : Int)
    (h : X.length = Y.length + 1) :
    travGo (X ++ X2) (Y ++ k :: Y2) = travGo X Y ++ k :: travGo X2 Y2 := by
  induction X generalizing Y with
  | nil => simp at h
  | cons a A ih =>
    cases Y with
    | nil =>
      have hA : A = [] := by
        cases A with
        | nil => rfl
        | cons b B => simp at h
      subst hA
      simp [travGo]
    | cons y Y =>
      simp only [List.cons_append, travGo]
      rw [ih _ (by simpa using h)]
      simp

/-- Peeling a balanced prefix off an interleaving. -/
theorem travGo_peel (cs : List BTreeNode) (ks : List Int) (i : Nat)
    (hi : i ≤ ks.length) (hie : i ≤ cs.length) :
    travGo cs ks
      = travGo (cs.take i) (ks.take i) ++ travGo (cs.drop i) (ks.drop i) := by
  conv_lhs => rw [← List.take_append_drop i cs, ← List.take_append_drop i ks]
  rw [travGo_append _ _ _ _ (by rw [List.length_take, List.length_take]; omega)]

theorem mem_travGo_head {x : Int} (c : BTreeNode) (cs : List BTreeNode)
    (ks : List Int) (hx : x ∈ btree_traverse c) : x ∈ travGo (c :: cs) ks := by
  cases ks with
  | nil => simpa [travGo] using hx
  | cons k ks =>
    simp only [travGo, List.mem_append]
    exact Or.inl hx

/-- A key of a visible child occurs in the node's traversal. -/
theorem mem_travGo_of_child {x : Int} {cs : List BTreeNode} {ks : List Int}
    {i : Nat} {c : BTreeNode} (hc : cs.get? i = some c) (hi : i ≤ ks.length)
    (hx : x ∈ btree_traverse c) : x ∈ travGo cs ks := by
  have hie : i ≤ cs.length := le_of_lt (get?_some_lt hc)
  rw [travGo_peel cs ks i hi hie]
  have hdrop : cs.drop i = c :: cs.drop (i + 1) := by
    rw [List.drop_eq_getElem_cons (get?_some_lt hc)]
    have h2 := get?_eq_some_getElem cs i (get?_some_lt hc)
    rw [hc] at h2
    injection h2 with h1
    exact congrArg (fun y => y :: cs.drop (i + 1)) h1.symm
  rw [hdrop]
  exact List.mem_append.mpr (Or.inr (mem_travGo_head c _ _ hx))

/-- A key of the node itself occurs in the traversal. -/
theorem mem_travGo_of_key {x : Int} (cs : List BTreeNode) (ks : List Int)
    (hx : x ∈ ks) : x ∈ travGo cs ks := by
  induction cs generalizing ks with
  | nil => simpa [travGo] using hx
  | cons c cs ih =>
    cases ks with
    | nil => cases hx
    | cons k ks =>
      simp only [travGo, List.mem_append, List.mem_cons]
      rcases List.mem_cons.mp hx with h | h
      · exact Or.inr (Or.inl h)
      · exact Or.inr (Or.inr (ih ks h))

theorem mem_trav_of_key {x : Int} {node : BTreeNode} (hx : x ∈ node.keys) :
    x ∈ btree_traverse node := by
  cases node with
  | mk ks cs l =>
    cases l
    · rw [traverse_internal]
      exact mem_travGo_of_key cs ks hx
    · simpa using hx

theorem mem_trav_of_child {x : Int} {node c : BTreeNode} {i : Nat}
    (hlf : node.is_leaf = false) (hc : node.children.get? i = some c)
    (hi : i ≤ node.keys.length) (hx : x ∈ btree_traverse c) :
    x ∈ btree_traverse node := by
  cases node with
  | mk ks cs l =>
    simp only [is_leaf_mk] at hlf
    subst hlf
    rw [traverse_internal]
    exact mem_travGo_of_child hc hi hx

end BTreeNode

/-! ## Shape utilities -/

namespace BTreeNode

theorem ShapeL_iff (t d : Nat) (cs : List BTreeNode) :
    ShapeL t d cs ↔ ∀ c ∈ cs, t - 1 ≤ c.n ∧ Shape t d c := by
  induction cs with
  | nil => simp [ShapeL]
  | cons c cs ih =>
    simp only [ShapeL, List.mem_cons, ih]
    constructor
    · rintro ⟨h1, h2⟩ x hx
      rcases hx with rfl | hx
      · exact h1
      · exact h2 x hx
    · intro h
      exact ⟨h c (Or.inl rfl), fun x hx => h x (Or.inr hx)⟩

theorem Shape_def (t d : Nat) (node : BTreeNode) :
    Shape t d node ↔
      node.n ≤ 2 * t - 1 ∧
      (node.is_leaf = true → node.children = [] ∧ d = 0) ∧
      (node.is_leaf = false → node.children.length = node.n + 1 ∧
        ∃ d0, d = d0 + 1 ∧ ShapeL t d0 node.children) := by
  cases node with
  | mk ks cs l =>
    cases l <;> simp [Shape]

theorem Shape_leaf {t d : Nat} {node : BTreeNode} (h : Shape t d node)
    (hl : node.is_leaf = true) : node.children = [] ∧ d = 0 :=
  ((Shape_def t d node).mp h).2.1 hl

theorem Shape_internal {t d : Nat} {node : BTreeNode} (h : Shape t d node)
    (hl : node.is_leaf = false) :
    node.children.length = node.n + 1 ∧
      ∃ d0, d = d0 + 1 ∧ ShapeL t d0 node.children :=
  ((Shape_def t d node).mp h).2.2 hl

theorem Shape_count {t d : Nat} {node : BTreeNode} (h : Shape t d node) :
    node.n ≤ 2 * t - 1 :=
  ((Shape_def t d node).mp h).1

/-- A node of positive uniform depth is internal; of depth 0, a leaf. -/
theorem Shape_leaf_iff {t d : Nat} {node : BTreeNode} (h : Shape t d node) :
    node.is_leaf = (d = 0 : Bool) := by
  cases hl : node.is_leaf
  · obtain ⟨-, d0, rfl, -⟩ := Shape_internal h hl
    simp
  · obtain ⟨-, rfl⟩ := Shape_leaf h hl
    simp

/-- `btree_height`'s descent loop returns `d + 1` on a `Shape t d` node. -/
theorem height_from_shape (t : Nat) :
    ∀ (d : Nat) (node : BTreeNode), Shape t d node → height_from node = d + 1 := by
  intro d
  induction d with
  | zero =>
    intro node h
    have hl : node.is_leaf = true := by
      rw [Shape_leaf_iff h]; simp
    unfold height_from
    rw [if_pos hl]
  | succ d0 ih =>
    intro node h
    have hl : node.is_leaf = false := by
      rw [Shape_leaf_iff h]; simp
    obtain ⟨hlen, d1, hd1, hsl⟩ := Shape_internal h hl
    obtain rfl : d1 = d0 := by omega
    have h0 : node.children.get? 0 = some (node.children.getD 0 nil) :=
      get?_eq_getD_of_lt (by omega)
    have hmem : node.children.getD 0 nil ∈ node.children := List.get?_mem h0
    have hc0 := ((ShapeL_iff t _ node.children).mp hsl _ hmem).2
    have hstep : height_from node = 1 + height_from (node.children.getD 0 nil) := by
      conv_lhs => rw [height_from]
      rw [if_neg (by simp [hl]), h0]
    rw [hstep, ih _ hc0]
    omega

/-- The length of an interleaved traversal is the total child count plus
the key count. -/
theorem travGo_length (cs : List BTreeNode) (ks : List Int)
    (hlen : cs.length = ks.length + 1)
    (hc : ∀ c ∈ cs, count_node c = (btree_traverse c).length) :
    (travGo cs ks).length = countL cs + ks.length := by
  induction cs generalizing ks with
  | nil => simp at hlen
  | cons c cs ih =>
    cases ks with
    | nil =>
      have : cs = [] := by
        cases cs with
        | nil => rfl
        | cons d ds => simp at hlen
      subst this
      simp only [travGo, countL, List.length_nil]
      rw [← hc c (by simp)]
      omega
    | cons k ks =>
      simp only [travGo, List.length_append, List.length_cons, countL]
      rw [ih ks (by simpa using hlen) (fun x hx => hc x (by simp [hx])),
        ← hc c (by simp)]
      omega

/-- C helper `count_node` counts exactly the traversal length on shaped
trees. -/
theorem count_node_eq_trav_length (t : Nat) :
    ∀ (d : Nat) (node : BTreeNode), Shape t d node →
      count_node node = (btree_traverse node).length := by
  intro d
  induction d with
  | zero =>
    intro node h
    have hl : node.is_leaf = true := by rw [Shape_leaf_iff h]; simp
    cases node with
    | mk ks cs l =>
      simp only [is_leaf_mk] at hl
      subst hl
      obtain ⟨hcs, -⟩ := Shape_leaf h rfl
      simp only [children_mk] at hcs
      subst hcs
      simp [count_node, traverse_leaf]
  | succ d0 ih =>
    intro node h
    have hl : node.is_leaf = false := by rw [Shape_leaf_iff h]; simp
    obtain ⟨hlen, d1, hd1, hsl⟩ := Shape_internal h hl
    obtain rfl : d1 = d0 := by omega
    cases node with
    | mk ks cs l =>
      simp only [is_leaf_mk] at hl
      subst hl
      simp only [children_mk, keys_mk, n_mk] at hlen hsl
      rw [traverse_internal, count_node]
      rw [travGo_length cs ks hlen
        (fun c hc => ih c ((ShapeL_iff t _ cs).mp hsl c hc).2)]
      simp [count_node]
      omega

end BTreeNode

/-! ## Merge, borrow and fill specifications -/

namespace BTreeNode

theorem traverse_of_leaf {node : BTreeNode} (h : node.is_leaf = true) :
    btree_traverse node = node.keys := by
  cases node with
  | mk ks cs l =>
    simp only [is_leaf_mk] at h
    subst h
    simp

theorem traverse_of_internal {node : BTreeNode} (h : node.is_leaf = false) :
    btree_traverse node = travGo node.children node.keys := by
  cases node with
  | mk ks cs l =>
    simp only [is_leaf_mk] at h
    subst h
    simp only [children_mk, keys_mk]
    rw [traverse_internal]

theorem getD_cons_drop {α : Type} (l : List α) (i : Nat) (d : α)
    (h : i < l.length) : l.drop i = l.getD i d :: l.drop (i + 1) := by
  rw [List.drop_eq_getElem_cons h, List.getD_eq_getElem _ _ h]

theorem ShapeL_append (t d : Nat) (a b : List BTreeNode) :
    ShapeL t d (a ++ b) ↔ ShapeL t d a ∧ ShapeL t d b := by
  simp only [ShapeL_iff, List.mem_append]
  constructor
  · intro h
    exact ⟨fun c hc => h c (Or.inl hc), fun c hc => h c (Or.inr hc)⟩
  · rintro ⟨h1, h2⟩ c hc
    rcases hc with hc | hc
    · exact h1 c hc
    · exact h2 c hc

/-- Traversal of the merged child: left traversal, separating key, right
traversal. -/
theorem merged_child_trav {t d0 : Nat} (node : BTreeNode) (idx : Nat)
    (hLs : Shape t d0 (node.children.getD idx nil))
    (hRs : Shape t d0 (node.children.getD (idx + 1) nil)) :
    btree_traverse (merged_child node idx)
      = btree_traverse (node.children.getD idx nil)
        ++ node.keys.getD idx 0
          :: btree_traverse (node.children.getD (idx + 1) nil) := by
  have hLl := Shape_leaf_iff hLs
  have hRl := Shape_leaf_iff hRs
  unfold merged_child
  cases hLeq : node.children.getD idx nil with
  | mk LK LC Ll =>
  cases hReq : node.children.getD (idx + 1) nil with
  | mk RK RC Rl =>
  rw [hLeq] at hLs hLl
  rw [hReq] at hRs hRl
  simp only [is_leaf_mk, keys_mk, children_mk] at hLl hRl ⊢
  cases d0 with
  | zero =>
    simp only [decide_eq_true_eq, decide_true_eq_true] at hLl hRl
    have hLl' : Ll = true := by simpa using hLl
    have hRl' : Rl = true := by simpa using hRl
    subst hLl'
    subst hRl'
    rw [if_pos rfl]
    simp [traverse_leaf]
  | succ d1 =>
    have hLl' : Ll = false := by simpa using hLl
    have hRl' : Rl = false := by simpa using hRl
    subst hLl'
    subst hRl'
    obtain ⟨hLlen, -⟩ := Shape_internal hLs rfl
    simp only [n_mk, children_mk] at hLlen
    rw [if_neg Bool.false_ne_true]
    rw [traverse_internal, traverse_internal, traverse_internal]
    rw [travGo_append_key _ _ _ _ _ (by omega)]

/-- Shape and key count of the merged child. -/
theorem merged_child_shape {t d0 : Nat} (node : BTreeNode) (idx : Nat)
    (ht : 2 ≤ t)
    (hLs : Shape t d0 (node.children.getD idx nil))
    (hRs : Shape t d0 (node.children.getD (idx + 1) nil))
    (hL : (node.children.getD idx nil).n = t - 1)
    (hR : (node.children.getD (idx + 1) nil).n = t - 1) :
    Shape t d0 (merged_child node idx) ∧ (merged_child node idx).n = 2 * t - 1 := by
  unfold merged_child
  cases hLeq : node.children.getD idx nil with
  | mk LK LC Ll =>
  cases hReq : node.children.getD (idx + 1) nil with
  | mk RK RC Rl =>
  rw [hLeq] at hLs hL
  rw [hReq] at hRs hR
  simp only [is_leaf_mk, keys_mk, children_mk, n_mk] at hL hR ⊢
  have hn : (LK ++ node.keys.getD idx 0 :: RK).length = 2 * t - 1 := by
    simp only [List.length_append, List.length_cons]
    omega
  cases Ll with
  | true =>
    obtain ⟨hLc, hd⟩ := Shape_leaf hLs rfl
    simp only [children_mk] at hLc
    subst hLc
    subst hd
    rw [if_pos rfl]
    refine ⟨?_, by simpa using hn⟩
    simp only [Shape, if_pos rfl]
    exact ⟨by omega, by simp⟩
  | false =>
    rw [if_neg Bool.false_ne_true]
    obtain ⟨hLlen, dL, hdL, hLsl⟩ := Shape_internal hLs rfl
    subst hdL
    have hRl : Rl = false := by
      have := Shape_leaf_iff hRs
      simpa using this
    subst hRl
    obtain ⟨hRlen, dR, hdR, hRsl⟩ := Shape_internal hRs rfl
    obtain rfl : dL = dR := by omega
    simp only [n_mk, children_mk] at hLlen hRlen hLsl hRsl
    refine ⟨?_, by simpa using hn⟩
    simp only [Shape, if_neg Bool.false_ne_true]
    refine ⟨by omega, ?_, dL, rfl, (ShapeL_append t dL _ _).mpr ⟨hLsl, hRsl⟩⟩
    simp only [List.length_append, List.length_cons] at hn ⊢
    omega

end BTreeNode

namespace BTreeNode

theorem set_erase_succ {α : Type} (l : List α) (i : Nat) (x : α)
    (h : i + 1 < l.length) :
    (l.set i x).eraseIdx (i + 1) = l.take i ++ x :: l.drop (i + 2) := by
  induction l generalizing i with
  | nil => simp at h
  | cons a rest ih =>
    cases i with
    | zero =>
      cases rest with
      | nil => simp at h
      | cons b bs => simp [List.set, List.eraseIdx]
    | succ j =>
      simp only [List.set, List.eraseIdx, List.take, List.drop]
      rw [ih j (by simpa using h)]
      simp

/-- Full specification of `merge(node, idx, t)` under the conditions the
delete path establishes: the parent loses `keys[idx]` and the slot
`idx+1`, the merged child (with `2t-1` keys) sits at slot `idx`, children
stay shaped at the same level, and the in-order traversal is unchanged. -/
theorem merge_spec {t d0 : Nat} (node : BTreeNode) (idx : Nat)
    (ht : 2 ≤ t)
    (hlf : node.is_leaf = false)
    (hlen : node.children.length = node.n + 1)
    (hidx : idx < node.n)
    (hsl : ShapeL t d0 node.children)
    (hL : (node.children.getD idx nil).n = t - 1)
    (hR : (node.children.getD (idx + 1) nil).n = t - 1) :
    (merge node idx t).is_leaf = false ∧
    (merge node idx t).n = node.n - 1 ∧
    (merge node idx t).children.length = (node.n - 1) + 1 ∧
    (merge node idx t).keys = node.keys.take idx ++ node.keys.drop (idx + 1) ∧
    (merge node idx t).children
      = node.children.take idx ++ merged_child node idx
          :: node.children.drop (idx + 2) ∧
    ShapeL t d0 (merge node idx t).children ∧
    (merge node idx t).children.get? idx = some (merged_child node idx) ∧
    (merged_child node idx).n = 2 * t - 1 ∧
    Shape t d0 (merged_child node idx) ∧
    btree_traverse (merged_child node idx)
      = btree_traverse (node.children.getD idx nil)
        ++ node.keys.getD idx 0
          :: btree_traverse (node.children.getD (idx + 1) nil) ∧
    btree_traverse (merge node idx t) = btree_traverse node := by
  have hkl : node.n = node.keys.length := rfl
  have hic : idx < node.children.length := by omega
  have hic1 : idx + 1 < node.children.length := by omega
  have hLmem : node.children.getD idx nil ∈ node.children := size_getD_mem hic
  have hRmem : node.children.getD (idx + 1) nil ∈ node.children :=
    size_getD_mem hic1
  have hLs := ((ShapeL_iff t d0 node.children).mp hsl _ hLmem).2
  have hRs := ((ShapeL_iff t d0 node.children).mp hsl _ hRmem).2
  obtain ⟨hMs, hMn⟩ := merged_child_shape node idx ht hLs hRs hL hR
  have hMt := merged_child_trav node idx hLs hRs
  have hckeys : (merge node idx t).keys
      = node.keys.take idx ++ node.keys.drop (idx + 1) := by
    unfold merge
    rw [keys_mk, List.eraseIdx_eq_take_drop_succ]
  have hcch : (merge node idx t).children
      = node.children.take idx ++ merged_child node idx
          :: node.children.drop (idx + 2) := by
    unfold merge
    rw [children_mk, set_erase_succ _ _ _ hic1]
  have hdecomp_cs : node.children
      = node.children.take idx ++ node.children.getD idx nil
          :: node.children.getD (idx + 1) nil :: node.children.drop (idx + 2) := by
    conv_lhs => rw [← List.take_append_drop idx node.children]
    rw [getD_cons_drop _ idx nil hic]
    rw [getD_cons_drop _ (idx + 1) nil hic1]
  have hdecomp_ks : node.keys
      = node.keys.take idx ++ node.keys.getD idx 0 :: node.keys.drop (idx + 1) := by
    conv_lhs => rw [← List.take_append_drop idx node.keys]
    rw [getD_cons_drop _ idx 0 (by omega)]
  have hShapeCh : ShapeL t d0 (merge node idx t).children := by
    rw [hcch]
    have hfull : ShapeL t d0 (node.children.take idx
        ++ node.children.getD idx nil :: node.children.getD (idx + 1) nil
          :: node.children.drop (idx + 2)) := by
      rw [← hdecomp_cs]
      exact hsl
    rw [ShapeL_append] at hfull ⊢
    refine ⟨hfull.1, ?_⟩
    have h2 := hfull.2
    simp only [ShapeL] at h2 ⊢
    exact ⟨⟨by omega, hMs⟩, h2.2.2⟩
  have htrav : btree_traverse (merge node idx t) = btree_traverse node := by
    rw [traverse_of_internal (show (merge node idx t).is_leaf = false by
      unfold merge
      rw [is_leaf_mk, hlf])]
    rw [traverse_of_internal hlf]
    rw [hckeys, hcch]
    conv_rhs => rw [hdecomp_cs, hdecomp_ks]
    rw [travGo_append _ _ _ _ (by
      rw [List.length_take, List.length_take]
      omega)]
    rw [travGo_append _ _ _ _ (by
      rw [List.length_take, List.length_take]
      omega)]
    congr 1
    cases hdk : node.keys.drop (idx + 1) with
    | nil =>
      simp only [travGo]
      rw [hMt]
    | cons k2 K2 =>
      simp only [travGo]
      rw [hMt]
      simp
  refine ⟨by unfold merge; rw [is_leaf_mk, hlf], ?_, ?_, hckeys, hcch,
    hShapeCh, ?_, hMn, hMs, hMt, htrav⟩
  · unfold merge
    rw [n_mk, List.length_eraseIdx]
    simp only [if_pos (show idx < node.keys.length by omega)]
    rfl
  · rw [hcch]
    simp only [List.length_append, List.length_cons, List.length_take,
      List.length_drop]
    omega
  · rw [hcch]
    rw [get?_eq_some_getElem _ idx (by
      simp only [List.length_append, List.length_cons, List.length_take]
      omega)]
    congr 1
    rw [List.getElem_append_right (by rw [List.length_take]; omega)]
    simp [List.length_take, min_eq_left (show idx ≤ node.children.length by omega)]

end BTreeNode

namespace BTreeNode

theorem dropLast_append_getLastD {α : Type} (l : List α) (d : α) (h : l ≠ []) :
    l.dropLast ++ [l.getLastD d] = l := by
  rw [List.getLastD_eq_getLast? d l, List.getLast?_eq_getLast l h]
  simp only [Option.getD_some]
  exact List.dropLast_append_getLast h

theorem set_set_succ {α : Type} (l : List α) (i : Nat) (x y : α)
    (h : i + 1 < l.length) :
    (l.set (i + 1) y).set i x = l.take i ++ x :: y :: l.drop (i + 2) := by
  induction l generalizing i with
  | nil => simp at h
  | cons a rest ih =>
    cases i with
    | zero =>
      cases rest with
      | nil => simp at h
      | cons b bs => simp [List.set]
    | succ j =>
      simp only [List.set, List.take, List.drop]
      rw [ih j (by simpa using h), List.cons_append]

/-- The rotation identity of `borrow_from_left`: sibling-then-parent-key-
then-child reads the same before and after the borrow, and the child's
traversal only grows. -/
theorem borrowL_rotation {t d0 : Nat} (node : BTreeNode) (idx : Nat)
    (hSs : Shape t d0 (node.children.getD (idx - 1) nil))
    (hCs : Shape t d0 (node.children.getD idx nil))
    (hSn : t ≤ (node.children.getD (idx - 1) nil).n)
    (ht : 2 ≤ t) :
    (btree_traverse (borrowL_sibling node idx)
        ++ (node.children.getD (idx - 1) nil).keys.getLastD 0
          :: btree_traverse (borrowL_child node idx)
      = btree_traverse (node.children.getD (idx - 1) nil)
        ++ node.keys.getD (idx - 1) 0
          :: btree_traverse (node.children.getD idx nil)) ∧
    (∀ x, x ∈ btree_traverse (node.children.getD idx nil) →
      x ∈ btree_traverse (borrowL_child node idx)) := by
  have hSl := Shape_leaf_iff hSs
  have hCl := Shape_leaf_iff hCs
  unfold borrowL_sibling borrowL_child
  cases hSeq : node.children.getD (idx - 1) nil with
  | mk SK SC Sl =>
  cases hCeq : node.children.getD idx nil with
  | mk CK CC Cl =>
  rw [hSeq] at hSs hSl hSn
  rw [hCeq] at hCs hCl
  simp only [is_leaf_mk, keys_mk, children_mk, n_mk] at hSl hCl hSn ⊢
  have hSKne : SK ≠ [] := by
    intro hE
    rw [hE] at hSn
    simp only [n_mk, List.length_nil] at hSn
    omega
  cases Cl with
  | true =>
    have hSl' : Sl = true := by
      rw [hSl, hCl]
    subst hSl'
    rw [if_pos rfl, if_pos rfl]
    simp only [traverse_leaf, keys_mk]
    constructor
    · rw [List.append_cons SK.dropLast, dropLast_append_getLastD SK 0 hSKne]
    · intro x hx
      simp [hx]
  | false =>
    have hSl' : Sl = false := by
      rw [hSl, hCl]
    subst hSl'
    rw [if_neg Bool.false_ne_true, if_neg Bool.false_ne_true]
    obtain ⟨hSlen, dS, hdS, hSsl⟩ := Shape_internal hSs rfl
    simp only [children_mk, n_mk] at hSlen hSsl
    have hSCne : SC ≠ [] := by
      intro hE
      rw [hE] at hSlen
      simp at hSlen
    rw [traverse_internal, traverse_internal, traverse_internal,
      traverse_internal]
    constructor
    · conv_rhs =>
        rw [← dropLast_append_getLastD SC nil hSCne,
          ← dropLast_append_getLastD SK 0 hSKne]
      rw [travGo_append_key _ _ _ _ _ (by
        rw [List.length_dropLast, List.length_dropLast]
        omega)]
      simp only [travGo]
      simp [List.append_assoc]
    · intro x hx
      simp only [travGo, List.mem_append, List.mem_cons]
      exact Or.inr (Or.inr hx)

end BTreeNode

namespace BTreeNode

theorem get?_append_cons_self {α : Type} (A : List α) (x : α) (B : List α) :
    (A ++ x :: B).get? A.length = some x := by
  induction A with
  | nil => rfl
  | cons a A ih => simpa using ih

theorem get?_append_cons_cons {α : Type} (A : List α) (x y : α) (B : List α) :
    (A ++ x :: y :: B).get? (A.length + 1) = some y := by
  induction A with
  | nil => rfl
  | cons a A ih => simpa using ih

/-- Shapes and key counts of the two nodes rebuilt by `borrow_from_left`. -/
theorem borrowL_shapes {t d0 : Nat} (node : BTreeNode) (idx : Nat)
    (ht : 2 ≤ t)
    (hSs : Shape t d0 (node.children.getD (idx - 1) nil))
    (hCs : Shape t d0 (node.children.getD idx nil))
    (hSn : t ≤ (node.children.getD (idx - 1) nil).n)
    (hCn : (node.children.getD idx nil).n ≤ 2 * t - 2) :
    Shape t d0 (borrowL_sibling node idx) ∧
    (borrowL_sibling node idx).n = (node.children.getD (idx - 1) nil).n - 1 ∧
    Shape t d0 (borrowL_child node idx) ∧
    (borrowL_child node idx).n = (node.children.getD idx nil).n + 1 := by
  have hSb := Shape_count hSs
  have hSl := Shape_leaf_iff hSs
  have hCl := Shape_leaf_iff hCs
  unfold borrowL_sibling borrowL_child
  cases hSeq : node.children.getD (idx - 1) nil with
  | mk SK SC Sl =>
  cases hCeq : node.children.getD idx nil with
  | mk CK CC Cl =>
  rw [hSeq] at hSs hSl hSn hSb
  rw [hCeq] at hCs hCl hCn
  simp only [is_leaf_mk, keys_mk, children_mk, n_mk] at hSl hCl hSn hCn hSb ⊢
  cases Sl with
  | true =>
    have hCl' : Cl = true := by rw [hCl, hSl]
    subst hCl'
    obtain ⟨hSc, hd⟩ := Shape_leaf hSs rfl
    obtain ⟨hCc, -⟩ := Shape_leaf hCs rfl
    simp only [children_mk] at hSc hCc
    subst hSc
    subst hCc
    subst hd
    rw [if_pos rfl, if_pos rfl]
    refine ⟨?_, by simp [List.length_dropLast], ?_, by simp⟩
    · simp only [Shape, if_pos rfl]
      exact ⟨by rw [List.length_dropLast]; omega, by simp⟩
    · simp only [Shape, if_pos rfl]
      exact ⟨by simp only [List.length_cons]; omega, by simp⟩
  | false =>
    have hCl' : Cl = false := by rw [hCl, hSl]
    subst hCl'
    obtain ⟨hSlen, dS, hdS, hSsl⟩ := Shape_internal hSs rfl
    obtain ⟨hClen, dC, hdC, hCsl⟩ := Shape_internal hCs rfl
    obtain rfl : dC = dS := by omega
    subst hdS
    simp only [children_mk, n_mk] at hSlen hClen hSsl hCsl
    have hSCne : SC ≠ [] := by
      intro hE
      rw [hE] at hSlen
      simp at hSlen
    rw [if_neg Bool.false_ne_true, if_neg Bool.false_ne_true]
    have hbmem : SC.getLastD nil ∈ SC := getLastD_mem_of_ne_nil hSCne nil
    have hbs := (ShapeL_iff t dC SC).mp hSsl _ hbmem
    refine ⟨?_, by simp [List.length_dropLast], ?_, by simp⟩
    · simp only [Shape, if_neg Bool.false_ne_true]
      refine ⟨by rw [List.length_dropLast]; omega,
        by rw [List.length_dropLast, List.length_dropLast]; omega,
        dC, rfl, ?_⟩
      rw [ShapeL_iff]
      intro c hc
      exact (ShapeL_iff t dC SC).mp hSsl c ((List.dropLast_sublist SC).subset hc)
    · simp only [Shape, if_neg Bool.false_ne_true]
      refine ⟨by simp only [List.length_cons]; omega,
        by simp only [List.length_cons]; omega,
        dC, rfl, ?_⟩
      rw [ShapeL_iff]
      intro c hc
      rcases List.mem_cons.mp hc with rfl | hc
      · exact hbs
      · exact (ShapeL_iff t dC CC).mp hCsl c hc

/-- Full specification of `borrow_from_left` under `fill`'s guard. -/
theorem borrow_from_left_spec {t d0 : Nat} (node : BTreeNode) (idx : Nat)
    (ht : 2 ≤ t)
    (hlf : node.is_leaf = false)
    (hlen : node.children.length = node.n + 1)
    (h0 : 0 < idx) (hidx : idx ≤ node.n)
    (hsl : ShapeL t d0 node.children)
    (hSn : t ≤ (node.children.getD (idx - 1) nil).n)
    (hCn : (node.children.getD idx nil).n ≤ 2 * t - 2) :
    (borrow_from_left node idx).is_leaf = false ∧
    (borrow_from_left node idx).n = node.n ∧
    (borrow_from_left node idx).children.length = node.n + 1 ∧
    ShapeL t d0 (borrow_from_left node idx).children ∧
    (borrow_from_left node idx).children.get? idx = some (borrowL_child node idx) ∧
    (borrowL_child node idx).n = (node.children.getD idx nil).n + 1 ∧
    (∀ x, x ∈ btree_traverse (node.children.getD idx nil) →
      x ∈ btree_traverse (borrowL_child node idx)) ∧
    btree_traverse (borrow_from_left node idx) = btree_traverse node := by
  obtain ⟨i, rfl⟩ : ∃ i, idx = i + 1 := ⟨idx - 1, by omega⟩
  simp only [Nat.add_sub_cancel] at hSn ⊢
  have hkl : node.n = node.keys.length := rfl
  have hic : i + 1 < node.children.length := by omega
  have hic0 : i < node.children.length := by omega
  have hik : i < node.keys.length := by omega
  have hSmem := size_getD_mem hic0
  have hCmem := size_getD_mem hic
  have hSs := ((ShapeL_iff t d0 node.children).mp hsl _ hSmem).2
  have hCs := ((ShapeL_iff t d0 node.children).mp hsl _ hCmem).2
  have hrot := borrowL_rotation node (i + 1) (by simpa using hSs)
    (by simpa using hCs) (by simpa using hSn) ht
  simp only [Nat.add_sub_cancel] at hrot
  obtain ⟨hid, hsub⟩ := hrot
  obtain ⟨hS's, hS'n, hC's, hC'n⟩ := borrowL_shapes node (i + 1) ht
    (by simpa using hSs) (by simpa using hCs) (by simpa using hSn) hCn
  simp only [Nat.add_sub_cancel] at hS's hS'n hC's hC'n
  have hch : (borrow_from_left node (i + 1)).children
      = node.children.take i ++ borrowL_sibling node (i + 1)
          :: borrowL_child node (i + 1) :: node.children.drop (i + 2) := by
    unfold borrow_from_left
    rw [children_mk]
    simp only [Nat.add_sub_cancel]
    rw [set_set_succ _ _ _ _ hic]
  have hks : (borrow_from_left node (i + 1)).keys
      = node.keys.take i ++ (node.children.getD i nil).keys.getLastD 0
          :: node.keys.drop (i + 1) := by
    unfold borrow_from_left
    rw [keys_mk]
    simp only [Nat.add_sub_cancel]
    rw [List.set_eq_take_cons_drop _ hik]
  have hdecomp_cs : node.children
      = node.children.take i ++ node.children.getD i nil
          :: node.children.getD (i + 1) nil :: node.children.drop (i + 2) := by
    conv_lhs => rw [← List.take_append_drop i node.children]
    rw [getD_cons_drop _ i nil hic0, getD_cons_drop _ (i + 1) nil hic]
  have hdecomp_ks : node.keys
      = node.keys.take i ++ node.keys.getD i 0 :: node.keys.drop (i + 1) := by
    conv_lhs => rw [← List.take_append_drop i node.keys]
    rw [getD_cons_drop _ i 0 hik]
  refine ⟨by unfold borrow_from_left; rw [is_leaf_mk, hlf], ?_, ?_, ?_, ?_,
    hC'n, hsub, ?_⟩
  · unfold borrow_from_left
    rw [n_mk, List.length_set]
    rfl
  · rw [hch]
    simp only [List.length_append, List.length_cons, List.length_take,
      List.length_drop]
    omega
  · rw [hch]
    have hfull : ShapeL t d0 (node.children.take i
        ++ node.children.getD i nil :: node.children.getD (i + 1) nil
          :: node.children.drop (i + 2)) := by
      rw [← hdecomp_cs]
      exact hsl
    rw [ShapeL_append] at hfull ⊢
    refine ⟨hfull.1, ?_⟩
    have h2 := hfull.2
    simp only [ShapeL] at h2 ⊢
    refine ⟨⟨by omega, hS's⟩, ⟨by omega, hC's⟩, h2.2.2⟩
  · rw [hch]
    have h3 := get?_append_cons_cons (node.children.take i)
      (borrowL_sibling node (i + 1)) (borrowL_child node (i + 1))
      (node.children.drop (i + 2))
    rwa [List.length_take, Nat.min_eq_left (by omega)] at h3
  · rw [traverse_of_internal (show (borrow_from_left node (i + 1)).is_leaf = false
      by unfold borrow_from_left; rw [is_leaf_mk, hlf])]
    rw [traverse_of_internal hlf]
    rw [hks, hch]
    conv_rhs => rw [hdecomp_cs, hdecomp_ks]
    rw [travGo_append _ _ _ _ (by rw [List.length_take, List.length_take]; omega)]
    rw [travGo_append _ _ _ _ (by rw [List.length_take, List.length_take]; omega)]
    congr 1
    cases hdk : node.keys.drop (i + 1) with
    | nil =>
      simp only [travGo]
      exact hid
    | cons k2 K2 =>
      simp only [travGo]
      have := congrArg (fun l => l ++ k2 :: travGo (node.children.drop (i + 2)) K2) hid
      simpa [List.append_assoc] using this

end BTreeNode

namespace BTreeNode

theorem headD_cons_drop {α : Type} (l : List α) (d : α) (h : l ≠ []) :
    l.headD d :: l.drop 1 = l := by
  cases l with
  | nil => exact absurd rfl h
  | cons a rest => rfl

/-- The rotation identity of `borrow_from_right`: child-then-parent-key-
then-sibling reads the same before and after the borrow, and the child's
traversal only grows. -/
theorem borrowR_rotation {t d0 : Nat} (node : BTreeNode) (idx : Nat)
    (hCs : Shape t d0 (node.children.getD idx nil))
    (hSs : Shape t d0 (node.children.getD (idx + 1) nil))
    (hSn : t ≤ (node.children.getD (idx + 1) nil).n)
    (ht : 2 ≤ t) :
    (btree_traverse (borrowR_child node idx)
        ++ (node.children.getD (idx + 1) nil).keys.headD 0
          :: btree_traverse (borrowR_sibling node idx)
      = btree_traverse (node.children.getD idx nil)
        ++ node.keys.getD idx 0
          :: btree_traverse (node.children.getD (idx + 1) nil)) ∧
    (∀ x, x ∈ btree_traverse (node.children.getD idx nil) →
      x ∈ btree_traverse (borrowR_child node idx)) := by
  have hCl := Shape_leaf_iff hCs
  have hSl := Shape_leaf_iff hSs
  unfold borrowR_child borrowR_sibling
  cases hCeq : node.children.getD idx nil with
  | mk CK CC Cl =>
  cases hSeq : node.children.getD (idx + 1) nil with
  | mk SK SC Sl =>
  rw [hCeq] at hCs hCl
  rw [hSeq] at hSs hSl hSn
  simp only [is_leaf_mk, keys_mk, children_mk, n_mk] at hCl hSl hSn ⊢
  have hSKne : SK ≠ [] := by
    intro hE
    rw [hE] at hSn
    simp only [n_mk, List.length_nil] at hSn
    omega
  cases Cl with
  | true =>
    have hSl' : Sl = true := by
      rw [hSl, hCl]
    subst hSl'
    rw [if_pos rfl, if_pos rfl]
    simp only [traverse_leaf, keys_mk]
    constructor
    · rw [headD_cons_drop SK 0 hSKne]
      simp
    · intro x hx
      simp [hx]
  | false =>
    have hSl' : Sl = false := by
      rw [hSl, hCl]
    subst hSl'
    rw [if_neg Bool.false_ne_true, if_neg Bool.false_ne_true]
    obtain ⟨hClen, dC, hdC, hCsl⟩ := Shape_internal hCs rfl
    simp only [children_mk, n_mk] at hClen hCsl
    obtain ⟨hSlen, dS, hdS, hSsl⟩ := Shape_internal hSs rfl
    simp only [children_mk, n_mk] at hSlen hSsl
    have hSCne : SC ≠ [] := by
      intro hE
      rw [hE] at hSlen
      simp at hSlen
    rw [traverse_internal, traverse_internal, traverse_internal,
      traverse_internal]
    constructor
    · rw [travGo_append_key CC [SC.headD nil] CK [] _ (by omega)]
      conv_rhs =>
        rw [← headD_cons_drop SC nil hSCne, ← headD_cons_drop SK 0 hSKne]
      simp only [travGo]
      simp [List.append_assoc]
    · intro x hx
      rw [travGo_append_key CC [SC.headD nil] CK [] _ (by omega)]
      exact List.mem_append.mpr (Or.inl hx)

/-- Shapes and key counts of the two nodes rebuilt by `borrow_from_right`. -/
theorem borrowR_shapes {t d0 : Nat} (node : BTreeNode) (idx : Nat)
    (ht : 2 ≤ t)
    (hCs : Shape t d0 (node.children.getD idx nil))
    (hSs : Shape t d0 (node.children.getD (idx + 1) nil))
    (hSn : t ≤ (node.children.getD (idx + 1) nil).n)
    (hCn : (node.children.getD idx nil).n ≤ 2 * t - 2) :
    Shape t d0 (borrowR_child node idx) ∧
    (borrowR_child node idx).n = (node.children.getD idx nil).n + 1 ∧
    Shape t d0 (borrowR_sibling node idx) ∧
    (borrowR_sibling node idx).n = (node.children.getD (idx + 1) nil).n - 1 := by
  have hSb := Shape_count hSs
  have hCl := Shape_leaf_iff hCs
  have hSl := Shape_leaf_iff hSs
  unfold borrowR_child borrowR_sibling
  cases hCeq : node.children.getD idx nil with
  | mk CK CC Cl =>
  cases hSeq : node.children.getD (idx + 1) nil with
  | mk SK SC Sl =>
  rw [hCeq] at hCs hCl hCn
  rw [hSeq] at hSs hSl hSn hSb
  simp only [is_leaf_mk, keys_mk, children_mk, n_mk] at hCl hSl hSn hCn hSb ⊢
  cases Cl with
  | true =>
    have hSl' : Sl = true := by rw [hSl, hCl]
    subst hSl'
    obtain ⟨hCc, hd⟩ := Shape_leaf hCs rfl
    obtain ⟨hSc, -⟩ := Shape_leaf hSs rfl
    simp only [children_mk] at hCc hSc
    subst hCc
    subst hSc
    subst hd
    rw [if_pos rfl, if_pos rfl]
    refine ⟨?_, by simp, ?_, by simp⟩
    · simp only [Shape, if_pos rfl]
      exact ⟨by simp only [List.length_append, List.length_cons,
        List.length_nil]; omega, by simp⟩
    · simp only [Shape, if_pos rfl]
      exact ⟨by rw [List.length_drop]; omega, by simp⟩
  | false =>
    have hSl' : Sl = false := by rw [hSl, hCl]
    subst hSl'
    obtain ⟨hClen, dC, hdC, hCsl⟩ := Shape_internal hCs rfl
    obtain ⟨hSlen, dS, hdS, hSsl⟩ := Shape_internal hSs rfl
    obtain rfl : dS = dC := by omega
    subst hdC
    simp only [children_mk, n_mk] at hClen hSlen hCsl hSsl
    have hSCne : SC ≠ [] := by
      intro hE
      rw [hE] at hSlen
      simp at hSlen
    rw [if_neg Bool.false_ne_true, if_neg Bool.false_ne_true]
    have hbmem : SC.headD nil ∈ SC := headD_mem_of_ne_nil hSCne nil
    have hbs := (ShapeL_iff t dS SC).mp hSsl _ hbmem
    refine ⟨?_, by simp, ?_, by simp⟩
    · simp only [Shape, if_neg Bool.false_ne_true]
      refine ⟨by simp only [List.length_append, List.length_cons,
          List.length_nil]; omega,
        by simp only [List.length_append, List.length_cons,
          List.length_nil]; omega,
        dS, rfl, ?_⟩
      rw [ShapeL_iff]
      intro c hc
      rcases List.mem_append.mp hc with hc | hc
      · exact (ShapeL_iff t dS CC).mp hCsl c hc
      · rw [List.mem_singleton.mp hc]
        exact hbs
    · simp only [Shape, if_neg Bool.false_ne_true]
      refine ⟨by rw [List.length_drop]; omega,
        by rw [List.length_drop, List.length_drop]; omega,
        dS, rfl, ?_⟩
      rw [ShapeL_iff]
      intro c hc
      exact (ShapeL_iff t dS SC).mp hSsl c ((List.drop_sublist 1 SC).subset hc)

/-- Full specification of `borrow_from_right` under `fill`'s guard. -/
theorem borrow_from_right_spec {t d0 : Nat} (node : BTreeNode) (idx : Nat)
    (ht : 2 ≤ t)
    (hlf : node.is_leaf = false)
    (hlen : node.children.length = node.n + 1)
    (hidx : idx < node.n)
    (hsl : ShapeL t d0 node.children)
    (hSn : t ≤ (node.children.getD (idx + 1) nil).n)
    (hCn : (node.children.getD idx nil).n ≤ 2 * t - 2) :
    (borrow_from_right node idx).is_leaf = false ∧
    (borrow_from_right node idx).n = node.n ∧
    (borrow_from_right node idx).children.length = node.n + 1 ∧
    ShapeL t d0 (borrow_from_right node idx).children ∧
    (borrow_from_right node idx).children.get? idx
      = some (borrowR_child node idx) ∧
    (borrowR_child node idx).n = (node.children.getD idx nil).n + 1 ∧
    (∀ x, x ∈ btree_traverse (node.children.getD idx nil) →
      x ∈ btree_traverse (borrowR_child node idx)) ∧
    btree_traverse (borrow_from_right node idx) = btree_traverse node := by
  have hkl : node.n = node.keys.length := rfl
  have hic : idx + 1 < node.children.length := by omega
  have hic0 : idx < node.children.length := by omega
  have hik : idx < node.keys.length := by omega
  have hCmem := size_getD_mem hic0
  have hSmem := size_getD_mem hic
  have hCs := ((ShapeL_iff t d0 node.children).mp hsl _ hCmem).2
  have hSs := ((ShapeL_iff t d0 node.children).mp hsl _ hSmem).2
  obtain ⟨hid, hsub⟩ := borrowR_rotation node idx hCs hSs hSn ht
  obtain ⟨hC's, hC'n, hS's, hS'n⟩ := borrowR_shapes node idx ht hCs hSs hSn hCn
  have hch : (borrow_from_right node idx).children
      = node.children.take idx ++ borrowR_child node idx
          :: borrowR_sibling node idx :: node.children.drop (idx + 2) := by
    unfold borrow_from_right
    rw [children_mk]
    rw [List.set_comm _ _ _ (by omega)]
    rw [set_set_succ _ _ _ _ hic]
  have hks : (borrow_from_right node idx).keys
      = node.keys.take idx ++ (node.children.getD (idx + 1) nil).keys.headD 0
          :: node.keys.drop (idx + 1) := by
    unfold borrow_from_right
    rw [keys_mk]
    rw [List.set_eq_take_cons_drop _ hik]
  have hdecomp_cs : node.children
      = node.children.take idx ++ node.children.getD idx nil
          :: node.children.getD (idx + 1) nil :: node.children.drop (idx + 2) := by
    conv_lhs => rw [← List.take_append_drop idx node.children]
    rw [getD_cons_drop _ idx nil hic0, getD_cons_drop _ (idx + 1) nil hic]
  have hdecomp_ks : node.keys
      = node.keys.take idx ++ node.keys.getD idx 0 :: node.keys.drop (idx + 1) := by
    conv_lhs => rw [← List.take_append_drop idx node.keys]
    rw [getD_cons_drop _ idx 0 hik]
  refine ⟨by unfold borrow_from_right; rw [is_leaf_mk, hlf], ?_, ?_, ?_, ?_,
    hC'n, hsub, ?_⟩
  · unfold borrow_from_right
    rw [n_mk, List.length_set]
    rfl
  · rw [hch]
    simp only [List.length_append, List.length_cons, List.length_take,
      List.length_drop]
    omega
  · rw [hch]
    have hfull : ShapeL t d0 (node.children.take idx
        ++ node.children.getD idx nil :: node.children.getD (idx + 1) nil
          :: node.children.drop (idx + 2)) := by
      rw [← hdecomp_cs]
      exact hsl
    rw [ShapeL_append] at hfull ⊢
    refine ⟨hfull.1, ?_⟩
    have h2 := hfull.2
    simp only [ShapeL] at h2 ⊢
    refine ⟨⟨by omega, hC's⟩, ⟨by omega, hS's⟩, h2.2.2⟩
  · rw [hch]
    have h3 := get?_append_cons_self (node.children.take idx)
      (borrowR_child node idx)
      (borrowR_sibling node idx :: node.children.drop (idx + 2))
    rwa [List.length_take, Nat.min_eq_left (by omega)] at h3
  · rw [traverse_of_internal (show (borrow_from_right node idx).is_leaf = false
      by unfold borrow_from_right; rw [is_leaf_mk, hlf])]
    rw [traverse_of_internal hlf]
    rw [hks, hch]
    conv_rhs => rw [hdecomp_cs, hdecomp_ks]
    rw [travGo_append _ _ _ _ (by rw [List.length_take, List.length_take]; omega)]
    rw [travGo_append _ _ _ _ (by rw [List.length_take, List.length_take]; omega)]
    congr 1
    cases hdk : node.keys.drop (idx + 1) with
    | nil =>
      simp only [travGo]
      exact hid
    | cons k2 K2 =>
      simp only [travGo]
      have := congrArg
        (fun l => l ++ k2 :: travGo (node.children.drop (idx + 2)) K2) hid
      simpa [List.append_assoc] using this

end BTreeNode

namespace BTreeNode

theorem find_key_go_le (key : Int) : ∀ ks : List Int, find_key.go key ks ≤ ks.length := by
  intro ks
  induction ks with
  | nil => simp [find_key.go]
  | cons k rest ih =>
    rw [find_key.go]
    split
    · simpa using ih
    · simp

/-- `find_key` never points past the visible keys. -/
theorem find_key_le (node : BTreeNode) (key : Int) : find_key node key ≤ node.n :=
  find_key_go_le key node.keys

/-- Replacing one child by a node of equal traversal leaves the in-order
interleaving unchanged. -/
theorem travGo_set_congr {cs : List BTreeNode} {ks : List Int} {j : Nat}
    {c c' : BTreeNode} (hc : cs.get? j = some c) (hj : j ≤ ks.length)
    (ht : btree_traverse c' = btree_traverse c) :
    travGo (cs.set j c') ks = travGo cs ks := by
  induction cs generalizing ks j with
  | nil => simp at hc
  | cons a cs ih =>
    cases j with
    | zero =>
      injection hc with hac
      subst hac
      cases ks with
      | nil => simpa [travGo] using ht
      | cons k ks => simp [travGo, ht]
    | succ j =>
      cases ks with
      | nil => simp at hj
      | cons k ks =>
        simp only [List.set, travGo]
        rw [ih (by simpa using hc) (by simpa using hj)]

/-- Replacing a child by a shaped node with enough keys preserves `ShapeL`. -/
theorem ShapeL_set {t d : Nat} {cs : List BTreeNode} {j : Nat} {c' : BTreeNode}
    (hsl : ShapeL t d cs) (hs : Shape t d c') (hn : t - 1 ≤ c'.n) :
    ShapeL t d (cs.set j c') := by
  rw [ShapeL_iff] at hsl ⊢
  intro c hc
  rcases List.mem_or_eq_of_mem_set hc with h | rfl
  · exact hsl c h
  · exact ⟨hn, hs⟩

/-- The node rebuilt after a recursive delete or insert into one child
slot keeps its shape. -/
theorem Shape_rebuild {t d0 : Nat} {ks : List Int} {cs : List BTreeNode}
    {j : Nat} {c' : BTreeNode}
    (hlen : cs.length = ks.length + 1)
    (hk : ks.length ≤ 2 * t - 1)
    (hsl : ShapeL t d0 cs)
    (hs : Shape t d0 c') (hn : t - 1 ≤ c'.n) :
    Shape t (d0 + 1) (mk ks (cs.set j c') false) := by
  simp only [Shape, if_neg Bool.false_ne_true]
  exact ⟨hk, by rw [List.length_set]; exact hlen, d0, rfl, ShapeL_set hsl hs hn⟩

/-- Full specification of `fill(node, idx, t)` on a deficient child, and
of the recomputed descent index `j` of delete's Case 3: the parent loses
at most one key, shapes and traversal are preserved, and the child at `j`
has at least `t` keys and covers the traversal of the old descent child. -/
theorem fill_spec {t d0 : Nat} (node : BTreeNode) (idx : Nat)
    (ht : 2 ≤ t) (hlf : node.is_leaf = false)
    (hlen : node.children.length = node.n + 1)
    (hn : 1 ≤ node.n) (hidx : idx ≤ node.n)
    (hsl : ShapeL t d0 node.children)
    (hC : (node.children.getD idx nil).n = t - 1) :
    (fill node idx t).is_leaf = false ∧
    node.n - 1 ≤ (fill node idx t).n ∧
    (fill node idx t).n ≤ node.n ∧
    (fill node idx t).children.length = (fill node idx t).n + 1 ∧
    ShapeL t d0 (fill node idx t).children ∧
    btree_traverse (fill node idx t) = btree_traverse node ∧
    ∃ c, (fill node idx t).children.get?
        (if idx = node.n ∧ (fill node idx t).n < idx then idx - 1 else idx)
        = some c ∧ t ≤ c.n ∧
      ∀ x, x ∈ btree_traverse (node.children.getD idx nil) →
        x ∈ btree_traverse c := by
  unfold fill
  by_cases hG1 : 0 < idx ∧ idx - 1 < node.children.length ∧
      t ≤ (node.children.getD (idx - 1) nil).n
  · rw [if_pos hG1]
    obtain ⟨hBl, hBn, hBlen, hBsl, hBget, hBcn, hBsub, hBtrav⟩ :=
      borrow_from_left_spec node idx ht hlf hlen hG1.1 hidx hsl hG1.2.2
        (by rw [hC]; omega)
    rw [hBn]
    rw [if_neg (show ¬ (idx = node.n ∧ node.n < idx) by omega)]
    refine ⟨hBl, by omega, by omega, by rw [hBlen], hBsl, hBtrav,
      borrowL_child node idx, hBget, by rw [hBcn, hC]; omega, hBsub⟩
  · rw [if_neg hG1]
    by_cases hG2 : idx < node.n ∧ idx + 1 < node.children.length ∧
        t ≤ (node.children.getD (idx + 1) nil).n
    · rw [if_pos hG2]
      obtain ⟨hBl, hBn, hBlen, hBsl, hBget, hBcn, hBsub, hBtrav⟩ :=
        borrow_from_right_spec node idx ht hlf hlen hG2.1 hsl hG2.2.2
          (by rw [hC]; omega)
      rw [hBn]
      rw [if_neg (show ¬ (idx = node.n ∧ node.n < idx) by omega)]
      refine ⟨hBl, by omega, by omega, by rw [hBlen], hBsl, hBtrav,
        borrowR_child node idx, hBget, by rw [hBcn, hC]; omega, hBsub⟩
    · rw [if_neg hG2]
      by_cases hLt : idx < node.n
      · rw [if_pos hLt]
        have hi1 : idx + 1 < node.children.length := by omega
        have hRlo := ((ShapeL_iff t d0 node.children).mp hsl _
          (size_getD_mem hi1)).1
        have hRhi : (node.children.getD (idx + 1) nil).n < t := by
          by_contra h
          exact hG2 ⟨hLt, hi1, by omega⟩
        have hR : (node.children.getD (idx + 1) nil).n = t - 1 := by omega
        obtain ⟨hMl, hMn, hMlen, hMkeys, hMch, hMsl, hMget, hMcn, hMcs,
          hMct, hMtrav⟩ := merge_spec node idx ht hlf hlen hLt hsl hC hR
        rw [hMn]
        rw [if_neg (show ¬ (idx = node.n ∧ node.n - 1 < idx) by omega)]
        refine ⟨hMl, by omega, by omega, by rw [hMlen], hMsl, hMtrav,
          merged_child node idx, hMget, by rw [hMcn]; omega, ?_⟩
        intro x hx
        rw [hMct]
        exact List.mem_append.mpr (Or.inl hx)
      · rw [if_neg hLt]
        have hEq : idx = node.n := by omega
        have h1 : idx - 1 + 1 = idx := by omega
        have hi0 : idx - 1 < node.children.length := by omega
        have hLlo := ((ShapeL_iff t d0 node.children).mp hsl _
          (size_getD_mem hi0)).1
        have hLhi : (node.children.getD (idx - 1) nil).n < t := by
          by_contra h
          exact hG1 ⟨by omega, hi0, by omega⟩
        have hL : (node.children.getD (idx - 1) nil).n = t - 1 := by omega
        have hR' : (node.children.getD (idx - 1 + 1) nil).n = t - 1 := by
          rw [h1]
          exact hC
        obtain ⟨hMl, hMn, hMlen, hMkeys, hMch, hMsl, hMget, hMcn, hMcs,
          hMct, hMtrav⟩ :=
          merge_spec node (idx - 1) ht hlf hlen (by omega) hsl hL hR'
        rw [hMn]
        rw [if_pos ⟨hEq, by omega⟩]
        refine ⟨hMl, by omega, by omega, by rw [hMlen], hMsl, hMtrav,
          merged_child node (idx - 1), hMget, by rw [hMcn]; omega, ?_⟩
        intro x hx
        rw [hMct]
        refine List.mem_append.mpr (Or.inr (List.mem_cons_of_mem _ ?_))
        rw [h1]
        exact hx

end BTreeNode

namespace BTreeNode

/-- The Case-3 descent target: `fill` has run when the child was
deficient, otherwise the node is unchanged (the C local `node`
after the conditional `fill`). -/
def delete_descend_node (node : BTreeNode) (key : Int) (t : Nat) : BTreeNode :=
  if (node.children.getD (find_key node key) nil).n < t
  then fill node (find_key node key) t else node

/-- The recomputed Case-3 descent index `j`: one slot left of `idx` when
the descent aimed at the last child and the fill shrank the key count
below `idx` (the C test `idx > node->n` after the fill). -/
def delete_descend_index (node : BTreeNode) (key : Int) (t : Nat) : Nat :=
  if find_key node key = node.n ∧ (delete_descend_node node key t).n < find_key node key
  then find_key node key - 1 else find_key node key

/-- Unfolding of `delete_internal`, Case 1 (key found in a leaf). -/
theorem delete_internal_case1_eq (node : BTreeNode) (key : Int) (t : Nat)
    (hguard : find_key node key < node.n ∧
      node.keys.getD (find_key node key) 0 = key)
    (hlf : node.is_leaf = true) :
    delete_internal node key t
      = mk (node.keys.eraseIdx (find_key node key)) node.children node.is_leaf := by
  conv_lhs => rw [delete_internal]
  rw [if_pos hguard, if_pos hlf]

/-- Unfolding of `delete_internal`, no key found at a leaf: no-op. -/
theorem delete_internal_leaf_absent_eq (node : BTreeNode) (key : Int) (t : Nat)
    (hguard : ¬ (find_key node key < node.n ∧
      node.keys.getD (find_key node key) 0 = key))
    (hlf : node.is_leaf = true) :
    delete_internal node key t = node := by
  conv_lhs => rw [delete_internal]
  rw [if_neg hguard, if_pos hlf]

/-- Unfolding of `delete_internal`, Case 2a (key found in an internal
node, left child rich): the predecessor replaces the key and is deleted
from the left child. -/
theorem delete_internal_case2a_eq (node : BTreeNode) (key : Int) (t : Nat)
    (hguard : find_key node key < node.n ∧
      node.keys.getD (find_key node key) 0 = key)
    (hlf : node.is_leaf = false)
    (h2a : t ≤ (node.children.getD (find_key node key) nil).n)
    {c : BTreeNode}
    (hc : node.children.get? (find_key node key) = some c) :
    delete_internal node key t
      = mk (node.keys.set (find_key node key)
            (get_predecessor node (find_key node key)))
           (node.children.set (find_key node key)
            (delete_internal c (get_predecessor node (find_key node key)) t))
           node.is_leaf := by
  conv_lhs => rw [delete_internal]
  rw [if_pos hguard, if_neg (by rw [hlf]; exact Bool.false_ne_true), if_pos h2a]
  simp only []
  split
  · next c' heq =>
    rw [hc] at heq
    injection heq with h
    rw [h]
  · next heq =>
    rw [hc] at heq
    simp at heq

/-- Unfolding of `delete_internal`, Case 2b (key found in an internal
node, right child rich): the successor replaces the key and is deleted
from the right child. -/
theorem delete_internal_case2b_eq (node : BTreeNode) (key : Int) (t : Nat)
    (hguard : find_key node key < node.n ∧
      node.keys.getD (find_key node key) 0 = key)
    (hlf : node.is_leaf = false)
    (h2a : ¬ t ≤ (node.children.getD (find_key node key) nil).n)
    (h2b : t ≤ (node.children.getD (find_key node key + 1) nil).n)
    {c : BTreeNode}
    (hc : node.children.get? (find_key node key + 1) = some c) :
    delete_internal node key t
      = mk (node.keys.set (find_key node key)
            (get_successor node (find_key node key)))
           (node.children.set (find_key node key + 1)
            (delete_internal c (get_successor node (find_key node key)) t))
           node.is_leaf := by
  conv_lhs => rw [delete_internal]
  rw [if_pos hguard, if_neg (by rw [hlf]; exact Bool.false_ne_true),
    if_neg h2a, if_pos h2b]
  simp only []
  split
  · next c' heq =>
    rw [hc] at heq
    injection heq with h
    rw [h]
  · next heq =>
    rw [hc] at heq
    simp at heq

/-- Unfolding of `delete_internal`, Case 2c (key found in an internal
node, both neighbours minimal): merge around the key, then delete the key
from the merged child. -/
theorem delete_internal_case2c_eq (node : BTreeNode) (key : Int) (t : Nat)
    (hguard : find_key node key < node.n ∧
      node.keys.getD (find_key node key) 0 = key)
    (hlf : node.is_leaf = false)
    (h2a : ¬ t ≤ (node.children.getD (find_key node key) nil).n)
    (h2b : ¬ t ≤ (node.children.getD (find_key node key + 1) nil).n)
    {c : BTreeNode}
    (hc : (merge node (find_key node key) t).children.get? (find_key node key)
      = some c) :
    delete_internal node key t
      = mk (merge node (find_key node key) t).keys
           ((merge node (find_key node key) t).children.set (find_key node key)
            (delete_internal c key t))
           (merge node (find_key node key) t).is_leaf := by
  conv_lhs => rw [delete_internal]
  rw [if_pos hguard, if_neg (by rw [hlf]; exact Bool.false_ne_true),
    if_neg h2a, if_neg h2b]
  simp only []
  split
  · next c' heq =>
    rw [hc] at heq
    injection heq with h
    rw [h]
  · next heq =>
    rw [hc] at heq
    simp at heq

/-- Unfolding of `delete_internal`, Case 3 (key absent from an internal
node): conditional `fill`, recomputed index, descend. -/
theorem delete_internal_case3_eq (node : BTreeNode) (key : Int) (t : Nat)
    (hguard : ¬ (find_key node key < node.n ∧
      node.keys.getD (find_key node key) 0 = key))
    (hlf : node.is_leaf = false) {c : BTreeNode}
    (hc : (delete_descend_node node key t).children.get?
      (delete_descend_index node key t) = some c) :
    delete_internal node key t =
      mk (delete_descend_node node key t).keys
         ((delete_descend_node node key t).children.set
           (delete_descend_index node key t) (delete_internal c key t))
         (delete_descend_node node key t).is_leaf := by
  unfold delete_descend_index delete_descend_node at hc ⊢
  conv_lhs => rw [delete_internal]
  rw [if_neg hguard, if_neg (by rw [hlf]; exact Bool.false_ne_true)]
  simp only []
  split
  · next c' heq =>
    rw [hc] at heq
    injection heq with h
    rw [h]
  · next heq =>
    rw [hc] at heq
    simp at heq

/-- Master lemma for `delete_internal`: on a shaped nonempty node it
keeps the shape at the same leaf depth, removes at most one key of the
node itself, keeps the leaf flag, and leaves the traversal unchanged
when the key is absent. -/
theorem delete_internal_master {t : Nat} (ht : 2 ≤ t) :
    ∀ (N : Nat) (d : Nat) (node : BTreeNode) (key : Int), node.size ≤ N →
      Shape t d node → 1 ≤ node.n →
      Shape t d (delete_internal node key t) ∧
      node.n - 1 ≤ (delete_internal node key t).n ∧
      (delete_internal node key t).n ≤ node.n ∧
      (delete_internal node key t).is_leaf = node.is_leaf ∧
      (key ∉ btree_traverse node →
        btree_traverse (delete_internal node key t) = btree_traverse node) := by
  intro N
  induction N with
  | zero =>
    intro d node key hsz
    have := size_pos node
    omega
  | succ N ih =>
    intro d node key hsz hs h1
    have hb := Shape_count hs
    by_cases hguard : find_key node key < node.n ∧
        node.keys.getD (find_key node key) 0 = key
    · have hkeymem : key ∈ node.keys := by
        rw [← hguard.2]
        rw [List.getD_eq_getElem _ _ hguard.1]
        exact List.getElem_mem _
      have hktrav : key ∈ btree_traverse node := mem_trav_of_key hkeymem
      cases hlf : node.is_leaf with
      | true =>
        rw [delete_internal_case1_eq node key t hguard hlf]
        obtain ⟨hcs, hd0⟩ := Shape_leaf hs hlf
        subst hd0
        have hel : (node.keys.eraseIdx (find_key node key)).length = node.n - 1 := by
          rw [List.length_eraseIdx]
          simp only [if_pos (show find_key node key < node.keys.length from hguard.1)]
          rfl
        refine ⟨?_, ?_, ?_, by rw [is_leaf_mk]; exact hlf, fun hk => absurd hktrav hk⟩
        · rw [Shape_def]
          refine ⟨?_, ?_, ?_⟩
          · rw [n_mk, hel]
            omega
          · intro _
            exact ⟨hcs, rfl⟩
          · intro hfalse
            rw [is_leaf_mk, hlf] at hfalse
            simp at hfalse
        · rw [n_mk, hel]
        · rw [n_mk, hel]
          omega
      | false =>
        obtain ⟨hclen, d0, hdd, hsl⟩ := Shape_internal hs hlf
        subst hdd
        have hidx : find_key node key < node.n := hguard.1
        have hic : find_key node key < node.children.length := by omega
        have hic1 : find_key node key + 1 < node.children.length := by omega
        by_cases h2a : t ≤ (node.children.getD (find_key node key) nil).n
        · have hgc := get?_eq_getD_of_lt hic
          rw [delete_internal_case2a_eq node key t hguard hlf h2a hgc]
          have hcsz : (node.children.getD (find_key node key) nil).size ≤ N := by
            have := size_lt_of_mem (size_getD_mem hic)
            omega
          have hcsh := ((ShapeL_iff t d0 node.children).mp hsl _ (size_getD_mem hic)).2
          obtain ⟨ih1, ih2, ih3, ih4, ih5⟩ :=
            ih d0 _ (get_predecessor node (find_key node key)) hcsz hcsh (by omega)
          refine ⟨?_, ?_, ?_, ?_, fun hk => absurd hktrav hk⟩
          · rw [hlf]
            exact Shape_rebuild (by rw [List.length_set]; exact hclen)
              (by rw [List.length_set]; exact hb) hsl ih1 (by omega)
          · rw [n_mk, List.length_set]
            exact Nat.sub_le _ _
          · rw [n_mk, List.length_set]
            exact Nat.le_refl _
          · rw [is_leaf_mk]
            exact hlf
        · by_cases h2b : t ≤ (node.children.getD (find_key node key + 1) nil).n
          · have hgc := get?_eq_getD_of_lt hic1
            rw [delete_internal_case2b_eq node key t hguard hlf h2a h2b hgc]
            have hcsz : (node.children.getD (find_key node key + 1) nil).size ≤ N := by
              have := size_lt_of_mem (size_getD_mem hic1)
              omega
            have hcsh := ((ShapeL_iff t d0 node.children).mp hsl _ (size_getD_mem hic1)).2
            obtain ⟨ih1, ih2, ih3, ih4, ih5⟩ :=
              ih d0 _ (get_successor node (find_key node key)) hcsz hcsh (by omega)
            refine ⟨?_, ?_, ?_, ?_, fun hk => absurd hktrav hk⟩
            · rw [hlf]
              exact Shape_rebuild (by rw [List.length_set]; exact hclen)
                (by rw [List.length_set]; exact hb) hsl ih1 (by omega)
            · rw [n_mk, List.length_set]
              exact Nat.sub_le _ _
            · rw [n_mk, List.length_set]
              exact Nat.le_refl _
            · rw [is_leaf_mk]
              exact hlf
          · have hLlo := ((ShapeL_iff t d0 node.children).mp hsl _ (size_getD_mem hic)).1
            have hRlo := ((ShapeL_iff t d0 node.children).mp hsl _ (size_getD_mem hic1)).1
            have hL : (node.children.getD (find_key node key) nil).n = t - 1 := by omega
            have hR : (node.children.getD (find_key node key + 1) nil).n = t - 1 := by
              omega
            obtain ⟨hMl, hMn, hMlen, hMkeys, hMch, hMsl, hMget, hMcn, hMcs,
              hMct, hMtrav⟩ := merge_spec node (find_key node key) ht hlf hclen hidx hsl hL hR
            rw [delete_internal_case2c_eq node key t hguard hlf h2a h2b hMget]
            have hcsz : (merged_child node (find_key node key)).size ≤ N := by
              have := size_lt_of_mem_merge (List.get?_mem hMget)
              omega
            obtain ⟨ih1, ih2, ih3, ih4, ih5⟩ := ih d0 _ key hcsz hMcs (by omega)
            have hkl : (merge node (find_key node key) t).keys.length = node.n - 1 := hMn
            refine ⟨?_, ?_, ?_, ?_, fun hk => absurd hktrav hk⟩
            · rw [hMl]
              exact Shape_rebuild (by rw [hkl, hMlen]) (by rw [hkl]; omega)
                hMsl ih1 (by omega)
            · rw [n_mk, hkl]
            · rw [n_mk, hkl]
              omega
            · rw [is_leaf_mk, hMl]
    · cases hlf : node.is_leaf with
      | true =>
        rw [delete_internal_leaf_absent_eq node key t hguard hlf]
        exact ⟨hs, by omega, by omega, hlf, fun _ => rfl⟩
      | false =>
        obtain ⟨hclen, d0, hdd, hsl⟩ := Shape_internal hs hlf
        subst hdd
        have hidx : find_key node key ≤ node.n := find_key_le node key
        have hic : find_key node key < node.children.length := by omega
        by_cases hdef : (node.children.getD (find_key node key) nil).n < t
        · have hClo := ((ShapeL_iff t d0 node.children).mp hsl _ (size_getD_mem hic)).1
          have hC : (node.children.getD (find_key node key) nil).n = t - 1 := by omega
          obtain ⟨hFl, hFlo, hFhi, hFlen, hFsl, hFtrav, c, hcget, hcn, hcsub⟩ :=
            fill_spec node (find_key node key) ht hlf hclen h1 hidx hsl hC
          have hdn : delete_descend_node node key t = fill node (find_key node key) t := by
            unfold delete_descend_node
            rw [if_pos hdef]
          have hdj : delete_descend_index node key t
              = (if find_key node key = node.n ∧
                    (fill node (find_key node key) t).n < find_key node key
                 then find_key node key - 1 else find_key node key) := by
            unfold delete_descend_index
            rw [hdn]
          have hcget' : (delete_descend_node node key t).children.get?
              (delete_descend_index node key t) = some c := by
            rw [hdn, hdj]
            exact hcget
          rw [delete_internal_case3_eq node key t hguard hlf hcget']
          rw [hdn, hdj]
          have hcsz : c.size ≤ N := by
            have := size_lt_of_mem_fill (List.get?_mem hcget)
            omega
          have hcsh := ((ShapeL_iff t d0 _).mp hFsl _ (List.get?_mem hcget)).2
          obtain ⟨ih1, ih2, ih3, ih4, ih5⟩ := ih d0 c key hcsz hcsh (by omega)
          have hJle : (if find_key node key = node.n ∧
                (fill node (find_key node key) t).n < find_key node key
              then find_key node key - 1 else find_key node key)
              ≤ (fill node (find_key node key) t).keys.length := by
            have hJlt := get?_some_lt hcget
            show _ ≤ (fill node (find_key node key) t).n
            omega
          refine ⟨?_, ?_, ?_, ?_, ?_⟩
          · rw [hFl]
            exact Shape_rebuild hFlen (le_trans hFhi hb) hFsl ih1 (by omega)
          · rw [n_mk]
            exact hFlo
          · rw [n_mk]
            exact hFhi
          · rw [is_leaf_mk, hFl]
          · intro hk
            have hknotc : key ∉ btree_traverse c := by
              intro hkc
              apply hk
              rw [← hFtrav]
              exact mem_trav_of_child hFl hcget hJle hkc
            have htc := ih5 hknotc
            rw [traverse_of_internal (show (mk (fill node (find_key node key) t).keys
                _ (fill node (find_key node key) t).is_leaf).is_leaf = false by
              rw [is_leaf_mk, hFl])]
            rw [keys_mk, children_mk]
            rw [travGo_set_congr hcget hJle htc]
            rw [← traverse_of_internal hFl]
            exact hFtrav
        · have hdn : delete_descend_node node key t = node := by
            unfold delete_descend_node
            rw [if_neg hdef]
          have hdj : delete_descend_index node key t = find_key node key := by
            unfold delete_descend_index
            rw [hdn]
            rw [if_neg (show ¬ (find_key node key = node.n ∧
              node.n < find_key node key) by omega)]
          have hgc := get?_eq_getD_of_lt hic
          have hcget' : (delete_descend_node node key t).children.get?
              (delete_descend_index node key t)
              = some (node.children.getD (find_key node key) nil) := by
            rw [hdn, hdj]
            exact hgc
          rw [delete_internal_case3_eq node key t hguard hlf hcget']
          rw [hdn, hdj]
          have hcsz : (node.children.getD (find_key node key) nil).size ≤ N := by
            have := size_lt_of_mem (size_getD_mem hic)
            omega
          have hcsh := ((ShapeL_iff t d0 node.children).mp hsl _ (size_getD_mem hic)).2
          obtain ⟨ih1, ih2, ih3, ih4, ih5⟩ := ih d0 _ key hcsz hcsh (by omega)
          refine ⟨?_, ?_, ?_, ?_, ?_⟩
          · rw [hlf]
            exact Shape_rebuild hclen hb hsl ih1 (by omega)
          · rw [n_mk]
            exact Nat.sub_le _ _
          · rw [n_mk]
            exact Nat.le_refl _
          · rw [is_leaf_mk]
            exact hlf
          · intro hk
            have hknotc : key ∉ btree_traverse (node.children.getD (find_key node key) nil) :=
              fun hkc => hk (mem_trav_of_child hlf hgc
                (show find_key node key ≤ node.keys.length from hidx) hkc)
            have htc := ih5 hknotc
            rw [traverse_of_internal (show (mk node.keys _ node.is_leaf).is_leaf = false by
              rw [is_leaf_mk]; exact hlf)]
            rw [keys_mk, children_mk]
            rw [travGo_set_congr hgc (show find_key node key ≤ node.keys.length from hidx) htc]
            rw [← traverse_of_internal hlf]

end BTreeNode

namespace BTreeNode

/-- In a strictly ascending traversal, the scan index of `find_key`
points at the child subtree that holds the key (when the key is present
and is not one of the node's own keys). -/
theorem find_key_localizes (key : Int) :
    ∀ (cs : List BTreeNode) (ks : List Int),
      List.Pairwise (· < ·) (travGo cs ks) → key ∉ ks → key ∈ travGo cs ks →
      key ∈ btree_traverse (cs.getD (find_key.go key ks) nil) := by
  intro cs
  induction cs with
  | nil =>
    intro ks hp hnk hk
    simp only [travGo] at hk
    exact absurd hk hnk
  | cons c cs ih =>
    intro ks hp hnk hk
    cases ks with
    | nil =>
      simp only [travGo] at hk
      simpa [find_key.go] using hk
    | cons k0 ks =>
      simp only [travGo] at hp hk
      rw [List.pairwise_append] at hp
      rcases List.mem_append.mp hk with hkc | hkr
      · have hlt : key < k0 := hp.2.2 key hkc k0 (List.mem_cons_self _ _)
        rw [find_key.go, if_neg (by omega)]
        simpa using hkc
      · rcases List.mem_cons.mp hkr with rfl | hkr
        · exact absurd (List.mem_cons_self _ _) hnk
        · have hgt : k0 < key := (List.pairwise_cons.mp hp.2.1).1 key hkr
          rw [find_key.go, if_pos hgt]
          rw [List.getD_cons_succ]
          exact ih ks (List.pairwise_cons.mp hp.2.1).2
            (fun h => hnk (List.mem_cons_of_mem _ h)) hkr

/-- C4: in delete's Case 3 the deficient descent child is filled first,
the descent index is recomputed (one slot left exactly when the descent
aimed at the last child and the fill shrank the parent, i.e. merged), and
the recursive delete descends into a child that contains the key whenever
the key is present in the subtree. -/
theorem delete_case3_fill_and_descend {t d : Nat} (node : BTreeNode) (key : Int)
    (ht : 2 ≤ t)
    (hs : Shape t d node)
    (hlf : node.is_leaf = false)
    (h1 : 1 ≤ node.n)
    (hsorted : List.Pairwise (· < ·) (btree_traverse node))
    (habs : key ∉ node.keys) :
    (delete_descend_node node key t
      = if (node.children.getD (find_key node key) nil).n < t
        then fill node (find_key node key) t else node) ∧
    (delete_descend_index node key t
      = if find_key node key = node.n ∧
            (delete_descend_node node key t).n < find_key node key
        then find_key node key - 1 else find_key node key) ∧
    ∃ c, (delete_descend_node node key t).children.get?
        (delete_descend_index node key t) = some c ∧
      delete_internal node key t
        = mk (delete_descend_node node key t).keys
            ((delete_descend_node node key t).children.set
              (delete_descend_index node key t) (delete_internal c key t))
            (delete_descend_node node key t).is_leaf ∧
      t ≤ c.n ∧
      (key ∈ btree_traverse node → key ∈ btree_traverse c) := by
  have hguard : ¬ (find_key node key < node.n ∧
      node.keys.getD (find_key node key) 0 = key) := by
    intro ⟨hki, hke⟩
    apply habs
    rw [← hke]
    rw [List.getD_eq_getElem _ _ hki]
    exact List.getElem_mem _
  obtain ⟨hclen, d0, hdd, hsl⟩ := Shape_internal hs hlf
  have hidx : find_key node key ≤ node.n := find_key_le node key
  have hic : find_key node key < node.children.length := by omega
  have hloc : key ∈ btree_traverse node →
      key ∈ btree_traverse (node.children.getD (find_key node key) nil) := by
    intro hk
    rw [traverse_def, if_neg (by rw [hlf]; exact Bool.false_ne_true)] at hk hsorted
    exact find_key_localizes key node.children node.keys hsorted habs hk
  refine ⟨by unfold delete_descend_node; rfl,
    by unfold delete_descend_index; rfl, ?_⟩
  by_cases hdef : (node.children.getD (find_key node key) nil).n < t
  · have hClo := ((ShapeL_iff t d0 node.children).mp hsl _ (size_getD_mem hic)).1
    have hC : (node.children.getD (find_key node key) nil).n = t - 1 := by omega
    obtain ⟨hFl, hFlo, hFhi, hFlen, hFsl, hFtrav, c, hcget, hcn, hcsub⟩ :=
      fill_spec node (find_key node key) ht hlf hclen h1 hidx hsl hC
    have hdn : delete_descend_node node key t = fill node (find_key node key) t := by
      unfold delete_descend_node
      rw [if_pos hdef]
    have hdj : delete_descend_index node key t
        = (if find_key node key = node.n ∧
              (fill node (find_key node key) t).n < find_key node key
           then find_key node key - 1 else find_key node key) := by
      unfold delete_descend_index
      rw [hdn]
    have hcget' : (delete_descend_node node key t).children.get?
        (delete_descend_index node key t) = some c := by
      rw [hdn, hdj]
      exact hcget
    exact ⟨c, hcget', delete_internal_case3_eq node key t hguard hlf hcget',
      hcn, fun hk => hcsub key (hloc hk)⟩
  · have hdn : delete_descend_node node key t = node := by
      unfold delete_descend_node
      rw [if_neg hdef]
    have hdj : delete_descend_index node key t = find_key node key := by
      unfold delete_descend_index
      rw [hdn]
      rw [if_neg (show ¬ (find_key node key = node.n ∧
        node.n < find_key node key) by omega)]
    have hgc := get?_eq_getD_of_lt hic
    have hcget' : (delete_descend_node node key t).children.get?
        (delete_descend_index node key t)
        = some (node.children.getD (find_key node key) nil) := by
      rw [hdn, hdj]
      exact hgc
    exact ⟨_, hcget', delete_internal_case3_eq node key t hguard hlf hcget',
      by omega, hloc⟩

/-- C4 witness: `t = 2`, root `[10]` over leaves `[5]`, `[15]`, deleting
`15`: the last child is deficient, `fill` merges it left, and the descent
continues at index 0 into the merged child, which contains `15`. -/
theorem delete_case3_fill_and_descend_witness :
    (2 ≤ 2 ∧ Shape 2 1 (mk [10] [mk [5] [] true, mk [15] [] true] false) ∧
      (mk [10] [mk [5] [] true, mk [15] [] true] false).is_leaf = false ∧
      1 ≤ (mk [10] [mk [5] [] true, mk [15] [] true] false).n ∧
      List.Pairwise (· < ·)
        (btree_traverse (mk [10] [mk [5] [] true, mk [15] [] true] false)) ∧
      (15 : Int) ∉ (mk [10] [mk [5] [] true, mk [15] [] true] false).keys) ∧
    ((delete_descend_node (mk [10] [mk [5] [] true, mk [15] [] true] false) 15 2
      = if ((mk [10] [mk [5] [] true, mk [15] [] true] false).children.getD
            (find_key (mk [10] [mk [5] [] true, mk [15] [] true] false) 15) nil).n < 2
        then fill (mk [10] [mk [5] [] true, mk [15] [] true] false)
          (find_key (mk [10] [mk [5] [] true, mk [15] [] true] false) 15) 2
        else (mk [10] [mk [5] [] true, mk [15] [] true] false)) ∧
      (delete_descend_index (mk [10] [mk [5] [] true, mk [15] [] true] false) 15 2
        = if find_key (mk [10] [mk [5] [] true, mk [15] [] true] false) 15
              = (mk [10] [mk [5] [] true, mk [15] [] true] false).n ∧
            (delete_descend_node (mk [10] [mk [5] [] true, mk [15] [] true] false) 15 2).n
              < find_key (mk [10] [mk [5] [] true, mk [15] [] true] false) 15
          then find_key (mk [10] [mk [5] [] true, mk [15] [] true] false) 15 - 1
          else find_key (mk [10] [mk [5] [] true, mk [15] [] true] false) 15) ∧
      ∃ c, (delete_descend_node (mk [10] [mk [5] [] true, mk [15] [] true] false) 15 2).children.get?
          (delete_descend_index (mk [10] [mk [5] [] true, mk [15] [] true] false) 15 2) = some c ∧
        delete_internal (mk [10] [mk [5] [] true, mk [15] [] true] false) 15 2
          = mk (delete_descend_node (mk [10] [mk [5] [] true, mk [15] [] true] false) 15 2).keys
              ((delete_descend_node (mk [10] [mk [5] [] true, mk [15] [] true] false) 15 2).children.set
                (delete_descend_index (mk [10] [mk [5] [] true, mk [15] [] true] false) 15 2)
                (delete_internal c 15 2))
              (delete_descend_node (mk [10] [mk [5] [] true, mk [15] [] true] false) 15 2).is_leaf ∧
        2 ≤ c.n ∧
        ((15 : Int) ∈ btree_traverse (mk [10] [mk [5] [] true, mk [15] [] true] false) →
          (15 : Int) ∈ btree_traverse c)) := by
  have hs : Shape 2 1 (mk [10] [mk [5] [] true, mk [15] [] true] false) := by
    simp [Shape, ShapeL]
  have htr : btree_traverse (mk [10] [mk [5] [] true, mk [15] [] true] false)
      = [5, 10, 15] := by
    simp [btree_traverse, travGo]
  have hp : List.Pairwise (· < ·)
      (btree_traverse (mk [10] [mk [5] [] true, mk [15] [] true] false)) := by
    rw [htr]
    decide
  have hnk : (15 : Int) ∉ (mk [10] [mk [5] [] true, mk [15] [] true] false).keys := by
    decide
  exact ⟨⟨by omega, hs, rfl, by decide, hp, hnk⟩,
    delete_case3_fill_and_descend (mk [10] [mk [5] [] true, mk [15] [] true] false)
      15 (by omega) hs rfl (by decide) hp hnk⟩

end BTreeNode

namespace BTreeNode

theorem ShapeL_sublist {t d : Nat} {cs l : List BTreeNode}
    (hsl : ShapeL t d cs) (h : l.Sublist cs) : ShapeL t d l := by
  rw [ShapeL_iff] at hsl ⊢
  intro c hc
  exact hsl c (h.subset hc)

theorem ShapeL_of_get? {t d : Nat} {cs : List BTreeNode}
    (h : ∀ j c, cs.get? j = some c → t - 1 ≤ c.n ∧ Shape t d c) :
    ShapeL t d cs := by
  rw [ShapeL_iff]
  intro c hc
  obtain ⟨j, hj⟩ := List.mem_iff_get?.mp hc
  exact h j c hj

/-- `split_child` keeps the parent's shape one level up: one more key,
both halves of the split child properly shaped at the child level. -/
theorem split_child_shape {t d0 : Nat} (parent : BTreeNode) (i : Nat)
    (c : BTreeNode)
    (hc : parent.children.get? i = some c)
    (hfull : c.n = 2 * t - 1)
    (hroom : parent.n < 2 * t - 1)
    (ht : 2 ≤ t)
    (hi : i ≤ parent.n)
    (hlf : parent.is_leaf = false)
    (hlen : parent.children.length = parent.n + 1)
    (hsl : ShapeL t d0 parent.children) :
    Shape t (d0 + 1) (split_child parent i t) ∧
    (split_child parent i t).n = parent.n + 1 ∧
    (split_child parent i t).is_leaf = false := by
  have hcs : Shape t d0 c := ((ShapeL_iff t d0 parent.children).mp hsl _
    (List.get?_mem hc)).2
  have hcc : c.is_leaf = false → c.children.length = 2 * t := by
    intro h
    have := (Shape_internal hcs h).1
    omega
  obtain ⟨hn1, hlf1, hlen1, hgi, hti, hgi1, hti1, hcci, hmed, hsplit,
    hklo, hkhi, hclo, hchi⟩ := split_child_spec parent i t c hc hfull hroom ht hi hlen hcc
  have hlf' : (split_child parent i t).is_leaf = false := by
    rw [hlf1, hlf]
  have hshrunk : Shape t d0 (mk (c.keys.take (t - 1))
      (if c.is_leaf then c.children else c.children.take t) c.is_leaf) := by
    rw [Shape_def]
    refine ⟨by rw [n_mk, hti]; omega, ?_, ?_⟩
    · intro hl
      rw [is_leaf_mk] at hl
      obtain ⟨hce, hd⟩ := Shape_leaf hcs hl
      rw [children_mk, if_pos hl, hce]
      exact ⟨rfl, hd⟩
    · intro hl
      rw [is_leaf_mk] at hl
      obtain ⟨hcl, dc, hdc, hcsl⟩ := Shape_internal hcs hl
      rw [children_mk, if_neg (by rw [hl]; exact Bool.false_ne_true)]
      refine ⟨?_, dc, hdc, ShapeL_sublist hcsl (List.take_sublist t c.children)⟩
      rw [List.length_take, n_mk, hti, hcc hl]
      omega
  have hsib : Shape t d0 (mk (c.keys.drop t)
      (if c.is_leaf then [] else c.children.drop t) c.is_leaf) := by
    rw [Shape_def]
    refine ⟨by rw [n_mk, hti1]; omega, ?_, ?_⟩
    · intro hl
      rw [is_leaf_mk] at hl
      obtain ⟨hce, hd⟩ := Shape_leaf hcs hl
      rw [children_mk, if_pos hl]
      exact ⟨rfl, hd⟩
    · intro hl
      rw [is_leaf_mk] at hl
      obtain ⟨hcl, dc, hdc, hcsl⟩ := Shape_internal hcs hl
      rw [children_mk, if_neg (by rw [hl]; exact Bool.false_ne_true)]
      refine ⟨?_, dc, hdc, ShapeL_sublist hcsl (List.drop_sublist t c.children)⟩
      rw [List.length_drop, n_mk, hti1, hcc hl]
      omega
  refine ⟨?_, hn1, hlf'⟩
  rw [Shape_def]
  refine ⟨by rw [hn1]; omega, ?_, ?_⟩
  · intro hl
    rw [hlf'] at hl
    simp at hl
  · intro _
    refine ⟨by rw [hlen1, hn1], d0, rfl, ?_⟩
    apply ShapeL_of_get?
    intro j c' hj
    have hjlt : j < parent.n + 2 := by
      have := get?_some_lt hj
      rw [hlen1] at this
      exact this
    rcases Nat.lt_trichotomy j i with hji | hji | hji
    · rw [hclo j hji, get?_eq_getD_of_lt (by omega)] at hj
      injection hj with hj
      subst hj
      exact (ShapeL_iff t d0 parent.children).mp hsl _ (size_getD_mem (by omega))
    · subst hji
      rw [hgi] at hj
      injection hj with hj
      subst hj
      exact ⟨by rw [n_mk, hti], hshrunk⟩
    · rcases Nat.eq_or_lt_of_le hji with hji1 | hji1
      · obtain rfl : j = i + 1 := by omega
        rw [hgi1] at hj
        injection hj with hj
        subst hj
        exact ⟨by rw [n_mk, hti1], hsib⟩
      · obtain ⟨j', rfl⟩ : ∃ j', j = j' + 1 := ⟨j - 1, by omega⟩
        rw [hchi j' (by omega)] at hj
        have hj'lt : j' < parent.children.length := by omega
        rw [get?_eq_getD_of_lt hj'lt] at hj
        injection hj with hj
        subst hj
        exact (ShapeL_iff t d0 parent.children).mp hsl _ (size_getD_mem hj'lt)

end BTreeNode

namespace BTreeNode

/-- The scan position of `insert_non_full`: the C loop walks from the
right end over keys greater than the new key, landing on the first slot
whose key is not greater. -/
def ins_pos (node : BTreeNode) (key : Int) : Nat :=
  node.keys.length - (node.keys.reverse.takeWhile (fun k => key < k)).length

theorem ins_pos_le (node : BTreeNode) (key : Int) :
    ins_pos node key ≤ node.n := Nat.sub_le _ _

/-- Unfolding of `insert_non_full` at a leaf: insert at the scan position. -/
theorem insert_non_full_leaf_eq (node : BTreeNode) (key : Int) (t : Nat)
    (hlf : node.is_leaf = true) :
    insert_non_full node key t
      = mk (node.keys.insertIdx
          (ins_pos node key)
          key) node.children true := by
  unfold ins_pos
  conv_lhs => rw [insert_non_full]
  rw [if_pos hlf]

/-- Unfolding of `insert_non_full` at an internal node whose descent
child is not full: recurse into the child. -/
theorem insert_non_full_notfull_eq (node : BTreeNode) (key : Int) (t : Nat)
    (hlf : node.is_leaf = false) {c : BTreeNode}
    (hc : node.children.get?
      (ins_pos node key)
      = some c)
    (hnf : ¬ c.n = 2 * t - 1) :
    insert_non_full node key t
      = mk node.keys
          (node.children.set
            (ins_pos node key)
            (insert_non_full c key t))
          node.is_leaf := by
  unfold ins_pos at hc ⊢
  conv_lhs => rw [insert_non_full]
  rw [if_neg (by rw [hlf]; exact Bool.false_ne_true)]
  simp only []
  split
  · next heq =>
    rw [hc] at heq
    simp at heq
  · next c0 heq =>
    rw [hc] at heq
    injection heq with h
    subst h
    rw [if_neg hnf]

/-- Unfolding of `insert_non_full` at an internal node whose descent
child is full: split it, re-aim at the promoted median, recurse. -/
theorem insert_non_full_full_eq (node : BTreeNode) (key : Int) (t : Nat)
    (hlf : node.is_leaf = false) {c : BTreeNode}
    (hc : node.children.get?
      (ins_pos node key)
      = some c)
    (hf : c.n = 2 * t - 1) {c' : BTreeNode}
    (hc' : (split_child node
        (ins_pos node key)
        t).children.get?
      (if (split_child node
            (ins_pos node key)
            t).keys.getD
            (ins_pos node key) 0
          < key
       then (ins_pos node key) + 1
       else (ins_pos node key))
      = some c') :
    insert_non_full node key t
      = mk (split_child node
            (ins_pos node key)
            t).keys
          ((split_child node
            (ins_pos node key)
            t).children.set
            (if (split_child node
                  (ins_pos node key)
                  t).keys.getD
                  (ins_pos node key) 0
                < key
             then (ins_pos node key) + 1
             else (ins_pos node key))
            (insert_non_full c' key t))
          (split_child node
            (ins_pos node key)
            t).is_leaf := by
  unfold ins_pos at hc hc' ⊢
  conv_lhs => rw [insert_non_full]
  rw [if_neg (by rw [hlf]; exact Bool.false_ne_true)]
  simp only []
  split
  · next heq =>
    rw [hc] at heq
    simp at heq
  · next c0 heq =>
    rw [hc] at heq
    injection heq with h
    subst h
    rw [if_pos hf]
    split
    · next heq2 =>
      rw [hc'] at heq2
      simp at heq2
    · next c1 heq2 =>
      rw [hc'] at heq2
      injection heq2 with h2
      subst h2
      rfl

end BTreeNode

namespace BTreeNode

/-- Master lemma for `insert_non_full`: on a shaped non-full node it
keeps the shape at the same leaf depth, adds at most one key to the node
itself, and keeps the leaf flag. -/
theorem insert_non_full_spec {t : Nat} (ht : 2 ≤ t) :
    ∀ (N d : Nat) (node : BTreeNode) (key : Int), node.size ≤ N →
      Shape t d node → node.n < 2 * t - 1 →
      Shape t d (insert_non_full node key t) ∧
      node.n ≤ (insert_non_full node key t).n ∧
      (insert_non_full node key t).n ≤ node.n + 1 ∧
      (insert_non_full node key t).is_leaf = node.is_leaf := by
  intro N
  induction N with
  | zero =>
    intro d node key hsz
    have := size_pos node
    omega
  | succ N ih =>
    intro d node key hsz hs hroom
    have hkn : node.keys.length = node.n := rfl
    have hIle : ins_pos node key ≤ node.keys.length := ins_pos_le node key
    cases hlf : node.is_leaf with
    | true =>
      rw [insert_non_full_leaf_eq node key t hlf]
      obtain ⟨hcs, hd0⟩ := Shape_leaf hs hlf
      subst hd0
      have hil : (node.keys.insertIdx (ins_pos node key) key).length
          = node.n + 1 := by
        rw [List.length_insertIdx _ _ hIle, hkn]
      refine ⟨?_, ?_, ?_, by rw [is_leaf_mk]⟩
      · rw [Shape_def]
        refine ⟨by rw [n_mk, hil]; omega, fun _ => ⟨hcs, rfl⟩, ?_⟩
        intro hfalse
        rw [is_leaf_mk] at hfalse
        simp at hfalse
      · rw [n_mk, hil]
        omega
      · rw [n_mk, hil]
    | false =>
      obtain ⟨hclen, d0, hdd, hsl⟩ := Shape_internal hs hlf
      subst hdd
      have hb := Shape_count hs
      have hic : ins_pos node key < node.children.length := by omega
      have hgc := get?_eq_getD_of_lt hic
      by_cases hfull : (node.children.getD (ins_pos node key) nil).n = 2 * t - 1
      · have hcsh := ((ShapeL_iff t d0 node.children).mp hsl _ (size_getD_mem hic)).2
        have hcc : (node.children.getD (ins_pos node key) nil).is_leaf = false →
            (node.children.getD (ins_pos node key) nil).children.length = 2 * t := by
          intro h
          have := (Shape_internal hcsh h).1
          omega
        obtain ⟨hSs, hSn, hSl⟩ := split_child_shape node (ins_pos node key) _
          hgc hfull hroom ht (by omega) hlf hclen hsl
        obtain ⟨hn1, _, hlen1, hgi, hti, hgi1, hti1, _, _, _, _, _, _, _⟩ :=
          split_child_spec node (ins_pos node key) t _ hgc hfull hroom ht
            (by omega) hclen hcc
        obtain ⟨hslen', d0', hd0', hsl'⟩ := Shape_internal hSs hSl
        obtain rfl : d0 = d0' := by omega
        have hkn2 : (split_child node (ins_pos node key) t).keys.length
            = node.n + 1 := hSn
        by_cases hcmp : (split_child node (ins_pos node key) t).keys.getD
            (ins_pos node key) 0 < key
        · rw [insert_non_full_full_eq node key t hlf hgc hfull
            (by rw [if_pos hcmp]; exact hgi1)]
          rw [if_pos hcmp]
          have hsibmem := List.get?_mem hgi1
          have hsibsz : (mk ((node.children.getD (ins_pos node key) nil).keys.drop t)
              (if (node.children.getD (ins_pos node key) nil).is_leaf then []
               else (node.children.getD (ins_pos node key) nil).children.drop t)
              (node.children.getD (ins_pos node key) nil).is_leaf).size ≤ N := by
            have := size_lt_of_mem_split_child hic hsibmem
            omega
          have hsibsh := ((ShapeL_iff t d0 _).mp hsl' _ hsibmem).2
          have hsibn : (mk ((node.children.getD (ins_pos node key) nil).keys.drop t)
              (if (node.children.getD (ins_pos node key) nil).is_leaf then []
               else (node.children.getD (ins_pos node key) nil).children.drop t)
              (node.children.getD (ins_pos node key) nil).is_leaf).n = t - 1 := by
            rw [n_mk, hti1]
          obtain ⟨ih1, ih2, ih3, ih4⟩ := ih d0 _ key hsibsz hsibsh
            (by rw [hsibn]; omega)
          refine ⟨?_, ?_, ?_, ?_⟩
          · rw [hSl]
            exact Shape_rebuild hslen'
              (by rw [hkn2]; omega) hsl' ih1 (by omega)
          · rw [n_mk]
            omega
          · rw [n_mk]
            omega
          · rw [is_leaf_mk, hSl]
        · rw [insert_non_full_full_eq node key t hlf hgc hfull
            (by rw [if_neg hcmp]; exact hgi)]
          rw [if_neg hcmp]
          have hshmem := List.get?_mem hgi
          have hshsz : (mk ((node.children.getD (ins_pos node key) nil).keys.take (t - 1))
              (if (node.children.getD (ins_pos node key) nil).is_leaf then
                (node.children.getD (ins_pos node key) nil).children
               else (node.children.getD (ins_pos node key) nil).children.take t)
              (node.children.getD (ins_pos node key) nil).is_leaf).size ≤ N := by
            have := size_lt_of_mem_split_child hic hshmem
            omega
          have hshsh := ((ShapeL_iff t d0 _).mp hsl' _ hshmem).2
          have hshn : (mk ((node.children.getD (ins_pos node key) nil).keys.take (t - 1))
              (if (node.children.getD (ins_pos node key) nil).is_leaf then
                (node.children.getD (ins_pos node key) nil).children
               else (node.children.getD (ins_pos node key) nil).children.take t)
              (node.children.getD (ins_pos node key) nil).is_leaf).n = t - 1 := by
            rw [n_mk, hti]
          obtain ⟨ih1, ih2, ih3, ih4⟩ := ih d0 _ key hshsz hshsh
            (by rw [hshn]; omega)
          refine ⟨?_, ?_, ?_, ?_⟩
          · rw [hSl]
            exact Shape_rebuild hslen'
              (by rw [hkn2]; omega) hsl' ih1 (by omega)
          · rw [n_mk]
            omega
          · rw [n_mk]
            omega
          · rw [is_leaf_mk, hSl]
      · rw [insert_non_full_notfull_eq node key t hlf hgc hfull]
        have hclo := ((ShapeL_iff t d0 node.children).mp hsl _ (size_getD_mem hic)).1
        have hcsh := ((ShapeL_iff t d0 node.children).mp hsl _ (size_getD_mem hic)).2
        have hchi := Shape_count hcsh
        have hcsz : (node.children.getD (ins_pos node key) nil).size ≤ N := by
          have := size_lt_of_mem (size_getD_mem hic)
          omega
        obtain ⟨ih1, ih2, ih3, ih4⟩ := ih d0 _ key hcsz hcsh (by omega)
        refine ⟨?_, ?_, ?_, ?_⟩
        · rw [hlf]
          exact Shape_rebuild hclen hb hsl ih1 (by omega)
        · rw [n_mk]
          exact Nat.le_refl _
        · rw [n_mk]
          exact Nat.le_succ _
        · rw [is_leaf_mk]
          exact hlf

end BTreeNode

namespace BTree

open BTreeNode

@[simp] theorem root_mk (r : BTreeNode) (tt : Nat) : (⟨r, tt⟩ : BTree).root = r := rfl

@[simp] theorem t_mk (r : BTreeNode) (tt : Nat) : (⟨r, tt⟩ : BTree).t = tt := rfl

theorem btree_height_mk (r : BTreeNode) (tt : Nat) :
    btree_height ⟨r, tt⟩ = if r.n = 0 then 0 else height_from r := rfl

/-- C6 (amended): a delete on an empty root is a no-op; an emptied
non-leaf root is replaced by its sole child; the height reported by
`btree_height` decreases only when the recursive delete empties the root
(root replacement when it is internal, the empty-tree report when it is a
leaf); and an insert never lowers the height. -/
theorem height_decrease_characterization (tree : BTree) (key : Int) (d : Nat)
    (ht : 2 ≤ tree.t) (hs : Shape tree.t d tree.root) :
    (tree.root.n = 0 → btree_delete tree key = tree) ∧
    (1 ≤ tree.root.n →
      (delete_internal tree.root key tree.t).n = 0 →
      (delete_internal tree.root key tree.t).is_leaf = false →
      btree_delete tree key
        = ⟨(delete_internal tree.root key tree.t).children.getD 0 nil, tree.t⟩) ∧
    (btree_height (btree_delete tree key) < btree_height tree →
      (delete_internal tree.root key tree.t).n = 0) ∧
    btree_height tree ≤ btree_height (btree_insert tree key) := by
  have hno : tree.root.n = 0 → btree_delete tree key = tree := by
    intro h0
    unfold btree_delete
    rw [if_pos h0]
  have hrepl : 1 ≤ tree.root.n →
      (delete_internal tree.root key tree.t).n = 0 →
      (delete_internal tree.root key tree.t).is_leaf = false →
      btree_delete tree key
        = ⟨(delete_internal tree.root key tree.t).children.getD 0 nil, tree.t⟩ := by
    intro h1 hz hl
    unfold btree_delete
    rw [if_neg (by omega)]
    simp only []
    rw [if_pos ⟨hz, hl⟩]
  refine ⟨hno, hrepl, ?_, ?_⟩
  · intro hlt
    by_cases h0 : tree.root.n = 0
    · rw [hno h0] at hlt
      exact absurd hlt (lt_irrefl _)
    · have h1 : 1 ≤ tree.root.n := by omega
      obtain ⟨hS', hlo, hhi, hlfp, _⟩ := delete_internal_master ht tree.root.size
        d tree.root key (Nat.le_refl _) hs h1
      by_cases hz : (delete_internal tree.root key tree.t).n = 0
      · exact hz
      · exfalso
        have hdel : btree_delete tree key
            = ⟨delete_internal tree.root key tree.t, tree.t⟩ := by
          unfold btree_delete
          rw [if_neg h0]
          simp only []
          rw [if_neg (fun h => hz h.1)]
        rw [hdel, btree_height_mk, if_neg hz,
          height_from_shape tree.t d _ hS'] at hlt
        rw [show btree_height tree = if tree.root.n = 0 then 0
            else height_from tree.root from rfl, if_neg h0,
          height_from_shape tree.t d _ hs] at hlt
        exact absurd hlt (lt_irrefl _)
  · have hb := Shape_count hs
    have hold : btree_height tree ≤ d + 1 := by
      rw [show btree_height tree = if tree.root.n = 0 then 0
          else height_from tree.root from rfl]
      split
      · omega
      · rw [height_from_shape tree.t d _ hs]
    have hgen : ∀ R : BTreeNode, Shape tree.t (d + 1) R → R.n = 1 →
        btree_height tree ≤ btree_height ⟨R, tree.t⟩ := by
      intro R hR hRn
      have hRh : btree_height ⟨R, tree.t⟩ = d + 2 := by
        rw [btree_height_mk, if_neg (by omega),
          height_from_shape tree.t (d + 1) _ hR]
      omega
    unfold btree_insert
    by_cases hfull : tree.root.n = 2 * tree.t - 1
    · rw [if_pos hfull]
      simp only []
      have hg0 : (BTreeNode.mk [] [tree.root] false).children.get? 0
          = some tree.root := rfl
      have hcc0 : tree.root.is_leaf = false →
          tree.root.children.length = 2 * tree.t := by
        intro h
        have := (Shape_internal hs h).1
        omega
      have hsl0 : ShapeL tree.t d (BTreeNode.mk [] [tree.root] false).children := by
        rw [ShapeL_iff]
        intro c hc
        rw [children_mk, List.mem_singleton] at hc
        subst hc
        exact ⟨by omega, hs⟩
      have hroom0 : (BTreeNode.mk [] [tree.root] false).n < 2 * tree.t - 1 := by
        rw [n_mk]
        simp only [List.length_nil]
        omega
      obtain ⟨hSs, hSn, hSl⟩ := split_child_shape (BTreeNode.mk [] [tree.root] false)
        0 tree.root hg0 hfull hroom0 ht (Nat.zero_le _) rfl rfl hsl0
      obtain ⟨_, _, hlen1, hgi, hti, hgi1, hti1, _, _, _, _, _, _, _⟩ :=
        split_child_spec (BTreeNode.mk [] [tree.root] false) 0 tree.t tree.root
          hg0 hfull hroom0 ht (Nat.zero_le _) rfl hcc0
      rw [Nat.zero_add] at hgi1
      obtain ⟨hslen', d0', hd0', hsl'⟩ := Shape_internal hSs hSl
      obtain rfl : d = d0' := by omega
      have hkn2 : (split_child (BTreeNode.mk [] [tree.root] false) 0 tree.t).keys.length
          = 1 := hSn
      by_cases hcmp : (split_child (BTreeNode.mk [] [tree.root] false) 0
          tree.t).keys.getD 0 0 < key
      · rw [if_pos hcmp, hgi1]
        have hcsh := ((ShapeL_iff _ _ _).mp hsl' _ (List.get?_mem hgi1)).2
        have hcn' : (BTreeNode.mk (List.drop tree.t tree.root.keys)
            (if tree.root.is_leaf = true then []
             else List.drop tree.t tree.root.children) tree.root.is_leaf).n
            = tree.t - 1 := by
          rw [n_mk]
          exact hti1
        obtain ⟨ih1, ih2, ih3, ih4⟩ := insert_non_full_spec ht _ d _ key
          (Nat.le_refl _) hcsh (by rw [hcn']; omega)
        exact hgen _ (by
          rw [hSl]
          exact Shape_rebuild hslen' (by rw [hkn2]; omega) hsl' ih1 (by omega))
          hkn2
      · rw [if_neg hcmp, hgi]
        have hcsh := ((ShapeL_iff _ _ _).mp hsl' _ (List.get?_mem hgi)).2
        have hcn' : (BTreeNode.mk (List.take (tree.t - 1) tree.root.keys)
            (if tree.root.is_leaf = true then tree.root.children
             else List.take tree.t tree.root.children) tree.root.is_leaf).n
            = tree.t - 1 := by
          rw [n_mk]
          exact hti
        obtain ⟨ih1, ih2, ih3, ih4⟩ := insert_non_full_spec ht _ d _ key
          (Nat.le_refl _) hcsh (by rw [hcn']; omega)
        exact hgen _ (by
          rw [hSl]
          exact Shape_rebuild hslen' (by rw [hkn2]; omega) hsl' ih1 (by omega))
          hkn2
    · rw [if_neg hfull]
      obtain ⟨ih1, ih2, ih3, ih4⟩ := insert_non_full_spec ht tree.root.size d
        tree.root key (Nat.le_refl _) hs (by omega)
      rw [btree_height_mk, btree_height_mk]
      by_cases h0 : tree.root.n = 0
      · rw [if_pos h0]
        omega
      · rw [if_neg h0, if_neg (by omega)]
        rw [height_from_shape tree.t d _ hs, height_from_shape tree.t d _ ih1]

end BTree

namespace BTree

open BTreeNode

/-- C6 witness: the one-key leaf-root tree at `t = 2`, deleting and
inserting key 5. -/
theorem height_decrease_characterization_witness :
    (2 ≤ (⟨BTreeNode.mk [5] [] true, 2⟩ : BTree).t ∧
      Shape (⟨BTreeNode.mk [5] [] true, 2⟩ : BTree).t 0
        (⟨BTreeNode.mk [5] [] true, 2⟩ : BTree).root) ∧
    (((⟨BTreeNode.mk [5] [] true, 2⟩ : BTree).root.n = 0 →
        btree_delete ⟨BTreeNode.mk [5] [] true, 2⟩ 5
          = ⟨BTreeNode.mk [5] [] true, 2⟩) ∧
      (1 ≤ (⟨BTreeNode.mk [5] [] true, 2⟩ : BTree).root.n →
        (delete_internal (⟨BTreeNode.mk [5] [] true, 2⟩ : BTree).root 5
          (⟨BTreeNode.mk [5] [] true, 2⟩ : BTree).t).n = 0 →
        (delete_internal (⟨BTreeNode.mk [5] [] true, 2⟩ : BTree).root 5
          (⟨BTreeNode.mk [5] [] true, 2⟩ : BTree).t).is_leaf = false →
        btree_delete ⟨BTreeNode.mk [5] [] true, 2⟩ 5
          = ⟨(delete_internal (⟨BTreeNode.mk [5] [] true, 2⟩ : BTree).root 5
              (⟨BTreeNode.mk [5] [] true, 2⟩ : BTree).t).children.getD 0 nil,
             (⟨BTreeNode.mk [5] [] true, 2⟩ : BTree).t⟩) ∧
      (btree_height (btree_delete ⟨BTreeNode.mk [5] [] true, 2⟩ 5)
          < btree_height ⟨BTreeNode.mk [5] [] true, 2⟩ →
        (delete_internal (⟨BTreeNode.mk [5] [] true, 2⟩ : BTree).root 5
          (⟨BTreeNode.mk [5] [] true, 2⟩ : BTree).t).n = 0) ∧
      btree_height ⟨BTreeNode.mk [5] [] true, 2⟩
        ≤ btree_height (btree_insert ⟨BTreeNode.mk [5] [] true, 2⟩ 5)) :=
  ⟨⟨by decide, by simp [Shape]⟩,
    height_decrease_characterization ⟨BTreeNode.mk [5] [] true, 2⟩ 5 0
      (by decide) (by simp [Shape])⟩

end BTree

namespace BTreeNode

theorem keys_ok_iff (l : List Int) : ∀ mn mx : Int,
    (keys_ok l mn mx = true ↔ List.Chain (· < ·) mn l ∧ ∀ x ∈ l, x < mx) := by
  induction l with
  | nil => intro mn mx; simp [keys_ok]
  | cons k ks ih =>
    intro mn mx
    rw [keys_ok]
    simp only [Bool.and_eq_true, decide_eq_true_eq, List.chain_cons,
      List.mem_cons, ih]
    constructor
    · rintro ⟨⟨h1, h2⟩, h3, h4⟩
      exact ⟨⟨h1, h3⟩, fun x hx => by rcases hx with rfl | hx; exact h2; exact h4 x hx⟩
    · rintro ⟨⟨h1, h3⟩, h4⟩
      exact ⟨⟨h1, h4 k (Or.inl rfl)⟩, h3, fun x hx => h4 x (Or.inr hx)⟩

theorem keys_ok_pairwise {l : List Int} {mn mx : Int}
    (h : keys_ok l mn mx = true) : List.Pairwise (· < ·) (mn :: l) :=
  (List.chain_iff_pairwise.mp ((keys_ok_iff l mn mx).mp h).1)

theorem keys_ok_of_pairwise_bounded {l : List Int} {mn mx : Int}
    (hp : List.Pairwise (· < ·) (mn :: l)) (hb : ∀ x ∈ l, x < mx) :
    keys_ok l mn mx = true :=
  (keys_ok_iff l mn mx).mpr ⟨List.chain_iff_pairwise.mpr hp, hb⟩

/-- Splitting the validator's key check at a separator. -/
theorem keys_ok_append_cons_split {A B : List Int} {k mn mx : Int}
    (h : keys_ok (A ++ k :: B) mn mx = true) :
    keys_ok A mn k = true ∧ mn < k ∧ k < mx ∧ keys_ok B k mx = true := by
  induction A generalizing mn with
  | nil =>
    rw [List.nil_append, keys_ok] at h
    simp only [Bool.and_eq_true, decide_eq_true_eq] at h
    exact ⟨rfl, h.1.1, h.1.2, h.2⟩
  | cons a A ih =>
    rw [List.cons_append, keys_ok] at h
    simp only [Bool.and_eq_true, decide_eq_true_eq] at h
    obtain ⟨hA, hak, hkmx, hB⟩ := ih h.2
    refine ⟨?_, by omega, hkmx, hB⟩
    rw [keys_ok]
    simp only [Bool.and_eq_true, decide_eq_true_eq]
    exact ⟨⟨h.1.1, hak⟩, hA⟩

/-- Reassembling the validator's key check from the two child ranges. -/
theorem keys_ok_append_cons_join {A B : List Int} {k mn mx : Int}
    (hA : keys_ok A mn k = true) (hmnk : mn < k) (hkmx : k < mx)
    (hB : keys_ok B k mx = true) :
    keys_ok (A ++ k :: B) mn mx = true := by
  induction A generalizing mn with
  | nil =>
    rw [List.nil_append, keys_ok]
    simp only [Bool.and_eq_true, decide_eq_true_eq]
    exact ⟨⟨hmnk, hkmx⟩, hB⟩
  | cons a A ih =>
    rw [keys_ok] at hA
    simp only [Bool.and_eq_true, decide_eq_true_eq] at hA
    rw [List.cons_append, keys_ok]
    simp only [Bool.and_eq_true, decide_eq_true_eq]
    exact ⟨⟨hA.1.1, by omega⟩, ih hA.2 hA.1.2⟩

theorem keys_ok_of_sublist {l' l : List Int} {mn mx : Int}
    (hsub : l'.Sublist l) (h : keys_ok l mn mx = true) :
    keys_ok l' mn mx = true := by
  have hp := keys_ok_pairwise h
  have hb := ((keys_ok_iff l mn mx).mp h).2
  exact keys_ok_of_pairwise_bounded
    (hp.sublist (hsub.cons_cons mn))
    (fun x hx => hb x (hsub.subset hx))

/-- The node's own keys are a subsequence of the interleaved traversal. -/
theorem keys_sublist_travGo : ∀ (cs : List BTreeNode) (ks : List Int),
    ks.Sublist (travGo cs ks) := by
  intro cs
  induction cs with
  | nil => intro ks; rw [travGo]
  | cons c cs ih =>
    intro ks
    cases ks with
    | nil => simp [travGo]
    | cons k ks =>
      rw [travGo]
      exact ((ih ks).cons₂ k).trans (List.sublist_append_right _ _)

end BTreeNode

namespace BTreeNode

theorem WFL_iff : ∀ cs : List BTreeNode, (WFL cs ↔ ∀ c ∈ cs, WF c) := by
  intro cs
  induction cs with
  | nil => simp [WFL]
  | cons c cs ih =>
    rw [WFL]
    simp only [List.mem_cons, ih]
    constructor
    · rintro ⟨h1, h2⟩ x hx
      rcases hx with rfl | hx
      · exact h1
      · exact h2 x hx
    · intro h
      exact ⟨h c (Or.inl rfl), fun x hx => h x (Or.inr hx)⟩

/-- The traversal of a node with at least one key is nonempty. -/
theorem trav_ne_nil {node : BTreeNode} (h : 1 ≤ node.n) :
    btree_traverse node ≠ [] := by
  have hk : node.keys ≠ [] := by
    intro he
    have : node.keys.length = 0 := by rw [he]; rfl
    have hn : node.n = node.keys.length := rfl
    omega
  cases hke : node.keys with
  | nil => exact absurd hke hk
  | cons k ks =>
    have : k ∈ node.keys := by rw [hke]; exact List.mem_cons_self _ _
    exact List.ne_nil_of_mem (mem_trav_of_key this)

/-- Completeness of the validator's child loop: on shaped children with
an ordered interleaved traversal it returns the common (absolute) leaf
depth. -/
theorem validate_kids_complete {t : Nat} :
    ∀ cs : List BTreeNode,
      (∀ c ∈ cs, ∀ (d : Nat) (mn mx exp cur : Int), Shape t d c → t - 1 ≤ c.n →
        keys_ok (btree_traverse c) mn mx = true → (exp = -1 ∨ exp = cur + d) →
        0 ≤ cur → validate_node c t mn mx exp cur false = cur + d) →
      ∀ (ks : List Int) (d : Nat) (mn mx exp cur : Int),
        cs.length = ks.length + 1 →
        (∀ c ∈ cs, Shape t d c ∧ t - 1 ≤ c.n) →
        keys_ok (travGo cs ks) mn mx = true →
        (exp = -1 ∨ exp = cur + 1 + d) →
        0 ≤ cur →
        validate_kids cs ks t mn mx exp cur = cur + 1 + d := by
  intro cs
  induction cs with
  | nil =>
    intro _ ks d mn mx exp cur hlen
    simp at hlen
  | cons c cs ih =>
    intro IH ks d mn mx exp cur hlen hsh hko hexp hcur
    cases ks with
    | nil =>
      have hcs : cs = [] := by
        simp only [List.length_cons, List.length_nil] at hlen
        exact List.length_eq_zero.mp (by omega)
      subst hcs
      rw [validate_kids]
      have hko' : keys_ok (btree_traverse c) mn mx = true := by
        simpa [travGo] using hko
      have hvc := IH c (List.mem_cons_self _ _) d mn mx exp (cur + 1)
        (hsh c (List.mem_cons_self _ _)).1 (hsh c (List.mem_cons_self _ _)).2 hko'
        (by rcases hexp with h | h
            · exact Or.inl h
            · exact Or.inr h) (by omega)
      rw [hvc]
      rw [if_neg (by omega)]
      rcases hexp with h | h
      · rw [if_pos h]
      · rw [if_neg (by omega)]
        omega
    | cons k ks =>
      rw [validate_kids]
      simp only [travGo] at hko
      obtain ⟨hkoc, hmnk, hkmx, hkor⟩ := keys_ok_append_cons_split hko
      have hvc := IH c (List.mem_cons_self _ _) d mn k exp (cur + 1)
        (hsh c (List.mem_cons_self _ _)).1 (hsh c (List.mem_cons_self _ _)).2 hkoc
        (by rcases hexp with h | h
            · exact Or.inl h
            · exact Or.inr h) (by omega)
      rw [hvc]
      rw [if_neg (by omega)]
      have hif : (if exp = -1 then cur + 1 + (d : Int) else exp) = cur + 1 + d := by
        split
        · rfl
        · next h =>
          rcases hexp with h' | h'
          · exact absurd h' h
          · exact h'
      rw [hif]
      exact ih (fun x hx => IH x (List.mem_cons_of_mem _ hx)) ks d k mx _ cur
        (by simpa using hlen) (fun x hx => hsh x (List.mem_cons_of_mem _ hx))
        hkor (Or.inr rfl) hcur

/-- Completeness of the validator below the count bounds. -/
theorem validate_body_complete {t : Nat} (node : BTreeNode)
    (IH : ∀ c ∈ node.children, ∀ (d : Nat) (mn mx exp cur : Int),
      Shape t d c → t - 1 ≤ c.n →
      keys_ok (btree_traverse c) mn mx = true → (exp = -1 ∨ exp = cur + d) →
      0 ≤ cur → validate_node c t mn mx exp cur false = cur + d) :
    ∀ (d : Nat) (mn mx exp cur : Int), Shape t d node →
      keys_ok (btree_traverse node) mn mx = true →
      (exp = -1 ∨ exp = cur + d) → 0 ≤ cur →
      validate_body node t mn mx exp cur = cur + d := by
  intro d mn mx exp cur hs hko hexp hcur
  rw [validate_body]
  cases hlf : node.is_leaf with
  | true =>
    obtain ⟨hcs, hd0⟩ := Shape_leaf hs hlf
    subst hd0
    have hkk : keys_ok node.keys mn mx = true := by
      rw [← traverse_of_leaf hlf]
      exact hko
    rw [if_neg (not_not_intro hkk), if_pos rfl]
    rcases hexp with h | h
    · rw [if_neg (by
        intro hc
        exact hc.1 h)]
      omega
    · rw [if_neg (by
        intro hc
        apply hc.2
        omega)]
      omega
  | false =>
    obtain ⟨hclen, d0, hdd, hsl⟩ := Shape_internal hs hlf
    subst hdd
    have htrav := traverse_of_internal hlf
    have hkk : keys_ok node.keys mn mx = true := by
      refine keys_ok_of_sublist ?_ (htrav ▸ hko)
      exact keys_sublist_travGo node.children node.keys
    rw [if_neg (not_not_intro hkk), if_neg Bool.false_ne_true]
    rw [validate_kids_complete node.children IH node.keys d0 mn mx exp cur
      hclen (fun c hc => And.symm ((ShapeL_iff t d0 node.children).mp hsl c hc))
      (htrav ▸ hko)
      (by rcases hexp with h | h
          · exact Or.inl h
          · right
            rw [h]
            push_cast
            ring) hcur]
    push_cast
    ring

/-- Completeness of the validator at a non-root node. -/
theorem validate_node_complete {t : Nat} (ht : 2 ≤ t) :
    ∀ (N : Nat) (node : BTreeNode) (d : Nat) (mn mx exp cur : Int),
      node.size ≤ N →
      Shape t d node → t - 1 ≤ node.n →
      keys_ok (btree_traverse node) mn mx = true →
      (exp = -1 ∨ exp = cur + d) → 0 ≤ cur →
      validate_node node t mn mx exp cur false = cur + d := by
  intro N
  induction N with
  | zero =>
    intro node d mn mx exp cur hsz
    have := size_pos node
    omega
  | succ N ih =>
    intro node d mn mx exp cur hsz hs hlo hko hexp hcur
    have hb := Shape_count hs
    have hg1 : ¬ ((node.n : Int) < (t : Int) - 1) := by omega
    have hg2 : ¬ (2 * (t : Int) - 1 < (node.n : Int)) := by omega
    rw [validate_node]
    rw [if_neg (show ¬ (false = true) by simp)]
    rw [if_neg hg1, if_neg hg2]
    exact validate_body_complete node
      (fun c hc d' mn' mx' exp' cur' h1 h2 h3 h4 h5 =>
        ih c d' mn' mx' exp' cur' (by
          have := size_lt_of_mem hc
          omega) h1 h2 h3 h4 h5)
      d mn mx exp cur hs hko hexp hcur

end BTreeNode

namespace BTreeNode

theorem WF_def (node : BTreeNode) :
    WF node ↔ (if node.is_leaf then node.children = []
      else node.children.length = node.n + 1) ∧ WFL node.children := by
  cases node with
  | mk ks cs l =>
    rw [WF]
    rfl

/-- Soundness of the validator's child loop: a non-error return yields a
common depth, shaped children, and an ordered interleaved traversal. -/
theorem validate_kids_sound {t : Nat} :
    ∀ cs : List BTreeNode,
      (∀ c ∈ cs, ∀ (mn mx exp cur : Int), 0 ≤ cur → WF c →
        validate_node c t mn mx exp cur false ≠ -1 →
        ∃ d : Nat, Shape t d c ∧ t - 1 ≤ c.n ∧
          keys_ok (btree_traverse c) mn mx = true ∧
          validate_node c t mn mx exp cur false = cur + d ∧
          (exp ≠ -1 → exp = cur + d)) →
      ∀ (ks : List Int) (mn mx exp cur : Int), 0 ≤ cur → WFL cs →
        cs.length = ks.length + 1 →
        keys_ok ks mn mx = true →
        validate_kids cs ks t mn mx exp cur ≠ -1 →
        ∃ d : Nat, (∀ c ∈ cs, Shape t d c ∧ t - 1 ≤ c.n) ∧
          keys_ok (travGo cs ks) mn mx = true ∧
          validate_kids cs ks t mn mx exp cur = cur + 1 + d ∧
          (exp ≠ -1 → exp = cur + 1 + d) := by
  intro cs
  induction cs with
  | nil =>
    intro _ ks mn mx exp cur _ _ hlen
    simp at hlen
  | cons c cs ih =>
    intro IH ks mn mx exp cur hcur hwfl hlen hks hval
    rw [WFL] at hwfl
    cases ks with
    | nil =>
      have hcs : cs = [] := by
        simp only [List.length_cons, List.length_nil] at hlen
        exact List.length_eq_zero.mp (by omega)
      subst hcs
      rw [validate_kids] at hval ⊢
      by_cases hD : validate_node c t mn mx exp (cur + 1) false = -1
      · rw [if_pos hD] at hval
        exact absurd rfl hval
      · obtain ⟨d, hsh, hlo, hkoc, hDv, hDe⟩ :=
          IH c (List.mem_cons_self _ _) mn mx exp (cur + 1) (by omega) hwfl.1 hD
        rw [if_neg hD]
        refine ⟨d, ?_, ?_, ?_, ?_⟩
        · intro x hx
          rw [List.mem_singleton] at hx
          subst hx
          exact ⟨hsh, hlo⟩
        · simp only [travGo]
          exact hkoc
        · rw [hDv]
          by_cases he : exp = -1
          · rw [if_pos he]
          · rw [if_neg he]
            exact hDe he
        · intro he
          exact hDe he
    | cons k ks =>
      rw [validate_kids] at hval ⊢
      rw [keys_ok] at hks
      simp only [Bool.and_eq_true, decide_eq_true_eq] at hks
      by_cases hD : validate_node c t mn k exp (cur + 1) false = -1
      · rw [if_pos hD] at hval
        exact absurd rfl hval
      · rw [if_neg hD] at hval ⊢
        obtain ⟨dc, hsh, hlo, hkoc, hDv, hDe⟩ :=
          IH c (List.mem_cons_self _ _) mn k exp (cur + 1) (by omega) hwfl.1 hD
        rw [hDv] at hval ⊢
        obtain ⟨dr, hmem, hkor, hres, hexpr⟩ :=
          ih (fun x hx => IH x (List.mem_cons_of_mem _ hx)) ks k mx
            (if exp = -1 then cur + 1 + (dc : Int) else exp) cur hcur hwfl.2
            (by simpa using hlen) hks.2 hval
        have hne : (if exp = -1 then cur + 1 + (dc : Int) else exp) ≠ -1 := by
          split
        
          · omega
          · next h => exact h
        have hde : dc = dr := by
          have h2 := hexpr hne
          by_cases he : exp = -1
          · rw [if_pos he] at h2
            omega
          · rw [if_neg he] at h2
            have h3 := hDe he
            omega
        subst hde
        refine ⟨dc, ?_, ?_, hres, ?_⟩
        · intro x hx
          rcases List.mem_cons.mp hx with rfl | hx
          · exact ⟨hsh, hlo⟩
          · exact hmem x hx
        · simp only [travGo]
          exact keys_ok_append_cons_join hkoc hks.1.1 hks.1.2 hkor
        · intro he
          exact hDe he

/-- Soundness of the validator below the count bounds. -/
theorem validate_body_sound {t : Nat} (node : BTreeNode)
    (IH : ∀ c ∈ node.children, ∀ (mn mx exp cur : Int), 0 ≤ cur → WF c →
      validate_node c t mn mx exp cur false ≠ -1 →
      ∃ d : Nat, Shape t d c ∧ t - 1 ≤ c.n ∧
        keys_ok (btree_traverse c) mn mx = true ∧
        validate_node c t mn mx exp cur false = cur + d ∧
        (exp ≠ -1 → exp = cur + d)) :
    ∀ (mn mx exp cur : Int), 0 ≤ cur → WF node → node.n ≤ 2 * t - 1 →
      validate_body node t mn mx exp cur ≠ -1 →
      ∃ d : Nat, Shape t d node ∧
        keys_ok (btree_traverse node) mn mx = true ∧
        validate_body node t mn mx exp cur = cur + d ∧
        (exp ≠ -1 → exp = cur + d) := by
  intro mn mx exp cur hcur hwf hb hval
  rw [validate_body] at hval ⊢
  by_cases hkk : keys_ok node.keys mn mx = true
  · rw [if_neg (not_not_intro hkk)] at hval ⊢
    by_cases hlf : node.is_leaf = true
    · rw [if_pos hlf] at hval ⊢
      obtain ⟨hwf1, -⟩ := (WF_def node).mp hwf
      rw [if_pos hlf] at hwf1
      by_cases hcnd : exp ≠ -1 ∧ cur ≠ exp
      · rw [if_pos hcnd] at hval
        exact absurd rfl hval
      · rw [if_neg hcnd] at hval ⊢
        refine ⟨0, ?_, by rw [traverse_of_leaf hlf]; exact hkk, by omega, ?_⟩
        · rw [Shape_def]
          refine ⟨hb, fun _ => ⟨hwf1, rfl⟩, ?_⟩
          intro hf
          rw [hf] at hlf
          simp at hlf
        · intro he
          rcases not_and_or.mp hcnd with h | h
          · exact absurd he h
          · push_neg at h
            omega
    · rw [Bool.not_eq_true] at hlf
      rw [if_neg (by rw [hlf]; exact Bool.false_ne_true)] at hval ⊢
      obtain ⟨hwf1, hwfl⟩ := (WF_def node).mp hwf
      rw [if_neg (by rw [hlf]; exact Bool.false_ne_true)] at hwf1
      obtain ⟨dk, hmem, hkot, hres, hguard⟩ := validate_kids_sound node.children
        IH node.keys mn mx exp cur hcur hwfl hwf1 hkk hval
      refine ⟨dk + 1, ?_, ?_, ?_, ?_⟩
      · rw [Shape_def]
        refine ⟨hb, ?_, fun _ => ⟨hwf1, dk, rfl, ?_⟩⟩
        · intro hf
          rw [hlf] at hf
          simp at hf
        · rw [ShapeL_iff]
          intro x hx
          exact And.symm (hmem x hx)
      · rw [traverse_of_internal hlf]
        exact hkot
      · rw [hres]
        push_cast
        ring
      · intro he
        have := hguard he
        push_cast
        omega
  · rw [if_pos hkk] at hval
    exact absurd rfl hval

/-- Soundness of the validator at a non-root node. -/
theorem validate_node_sound {t : Nat} :
    ∀ (N : Nat) (node : BTreeNode) (mn mx exp cur : Int),
      node.size ≤ N → 0 ≤ cur → WF node →
      validate_node node t mn mx exp cur false ≠ -1 →
      ∃ d : Nat, Shape t d node ∧ t - 1 ≤ node.n ∧
        keys_ok (btree_traverse node) mn mx = true ∧
        validate_node node t mn mx exp cur false = cur + d ∧
        (exp ≠ -1 → exp = cur + d) := by
  intro N
  induction N with
  | zero =>
    intro node mn mx exp cur hsz
    have := size_pos node
    omega
  | succ N ih =>
    intro node mn mx exp cur hsz hcur hwf hval
    rw [validate_node] at hval ⊢
    rw [if_neg (by simp)] at hval ⊢
    by_cases hg1 : (node.n : Int) < (t : Int) - 1
    · rw [if_pos hg1] at hval
      exact absurd rfl hval
    · rw [if_neg hg1] at hval ⊢
      by_cases hg2 : 2 * (t : Int) - 1 < (node.n : Int)
      · rw [if_pos hg2] at hval
        exact absurd rfl hval
      · rw [if_neg hg2] at hval ⊢
        obtain ⟨d, h1, h2, h3, h4⟩ := validate_body_sound node
          (fun c hc mn' mx' exp' cur' a b cc =>
            ih c mn' mx' exp' cur' (by
              have := size_lt_of_mem hc
              omega) a b cc)
          mn mx exp cur hcur hwf (by omega) hval
        exact ⟨d, h1, by omega, h2, h3, h4⟩

/-- Soundness of the validator at the root. -/
theorem validate_root_sound {t : Nat} (node : BTreeNode) (mn mx : Int)
    (hwf : WF node)
    (hval : validate_node node t mn mx (-1) 0 true ≠ -1) :
    ∃ d : Nat, Shape t d node ∧
      keys_ok (btree_traverse node) mn mx = true := by
  rw [validate_node] at hval
  rw [if_pos rfl] at hval
  by_cases hg2 : 2 * (t : Int) - 1 < (node.n : Int)
  · rw [if_pos hg2] at hval
    exact absurd rfl hval
  · rw [if_neg hg2] at hval
    obtain ⟨d, h1, h2, -, -⟩ := validate_body_sound node
      (fun c hc mn' mx' exp' cur' a b cc =>
        validate_node_sound c.size c mn' mx' exp' cur' (Nat.le_refl _) a b cc)
      mn mx (-1) 0 (Int.le_refl 0) hwf (by omega) hval
    exact ⟨d, h1, h2⟩

/-- Completeness of the validator at the root. -/
theorem validate_root_complete {t : Nat} (ht : 2 ≤ t) (node : BTreeNode)
    (d : Nat) (mn mx : Int)
    (hs : Shape t d node)
    (hko : keys_ok (btree_traverse node) mn mx = true) :
    validate_node node t mn mx (-1) 0 true = d := by
  have hb := Shape_count hs
  rw [validate_node]
  rw [if_pos rfl]
  rw [if_neg (show ¬ (2 * (t : Int) - 1 < (node.n : Int)) by omega)]
  rw [validate_body_complete node
    (fun c hc d' mn' mx' exp' cur' h1 h2 h3 h4 h5 =>
      validate_node_complete ht c.size c d' mn' mx' exp' cur' (Nat.le_refl _)
        h1 h2 h3 h4 h5)
    d mn mx (-1) 0 hs hko (Or.inl rfl) (Int.le_refl 0)]
  omega

end BTreeNode

namespace BTree

open BTreeNode

/-- C7: deleting a key that is not present from a tree accepted by
`btree_validate` (in its well-formed visible-region representation)
leaves `btree_count` unchanged and keeps `btree_validate` true — the
descent may restructure nodes via fills and merges but removes no key. -/
theorem delete_absent_preserves_count_and_validate (tree : BTree) (key : Int)
    (ht : 2 ≤ tree.t)
    (hwf : WF tree.root)
    (hv : btree_validate tree = true)
    (hk : key ∉ btree_traverse tree.root) :
    btree_count (btree_delete tree key) = btree_count tree ∧
    btree_validate (btree_delete tree key) = true := by
  by_cases h0 : tree.root.n = 0
  · have hdel : btree_delete tree key = tree := by
      unfold btree_delete
      rw [if_pos h0]
    rw [hdel]
    exact ⟨rfl, hv⟩
  · have hvv : validate_node tree.root tree.t INT_MIN INT_MAX (-1) 0 true ≠ -1 := by
      unfold btree_validate at hv
      rw [if_neg (fun h => h0 h.1)] at hv
      exact of_decide_eq_true hv
    obtain ⟨d, hS, hko⟩ := validate_root_sound tree.root INT_MIN INT_MAX hwf hvv
    obtain ⟨hS', hlo, hhi, hlfp, htravp⟩ := delete_internal_master ht
      tree.root.size d tree.root key (Nat.le_refl _) hS (by omega)
    have htrav := htravp hk
    have hcount_old : count_node tree.root = (btree_traverse tree.root).length :=
      count_node_eq_trav_length tree.t d tree.root hS
    by_cases hrep : (delete_internal tree.root key tree.t).n = 0 ∧
        (delete_internal tree.root key tree.t).is_leaf = false
    · have hdel : btree_delete tree key
          = ⟨(delete_internal tree.root key tree.t).children.getD 0 nil, tree.t⟩ := by
        unfold btree_delete
        rw [if_neg h0]
        simp only []
        rw [if_pos hrep]
      obtain ⟨hclen', d0, hdd, hsl'⟩ := Shape_internal hS' hrep.2
      have h1len : (delete_internal tree.root key tree.t).children.length = 1 := by
        rw [hclen', hrep.1]
      have hcmem := size_getD_mem
        (show 0 < (delete_internal tree.root key tree.t).children.length by omega)
      have hcsh := (ShapeL_iff tree.t d0 _).mp hsl' _ hcmem
      have htrav' : btree_traverse (delete_internal tree.root key tree.t)
          = btree_traverse
            ((delete_internal tree.root key tree.t).children.getD 0 nil) := by
        rw [traverse_of_internal hrep.2]
        have hkeys : (delete_internal tree.root key tree.t).keys = [] :=
          List.length_eq_zero.mp hrep.1
        have hchd : (delete_internal tree.root key tree.t).children
            = [(delete_internal tree.root key tree.t).children.getD 0 nil] := by
          cases hcc : (delete_internal tree.root key tree.t).children with
          | nil =>
            rw [hcc] at h1len
            simp at h1len
          | cons a rest =>
            rw [hcc] at h1len
            simp only [List.length_cons] at h1len
            have hre : rest = [] := List.length_eq_zero.mp (by omega)
            subst hre
            rfl
        rw [hkeys, hchd]
        simp only [travGo]
        rfl
      have hccount : count_node
          ((delete_internal tree.root key tree.t).children.getD 0 nil)
          = (btree_traverse tree.root).length := by
        rw [count_node_eq_trav_length tree.t d0 _ hcsh.2, ← htrav', htrav]
      constructor
      · rw [hdel]
        show count_node _ = count_node tree.root
        rw [hccount, hcount_old]
      · rw [hdel]
        unfold btree_validate
        simp only [root_mk, t_mk]
        rw [if_neg (fun h => by
          have h2 := hcsh.1
          have h3 := h.1
          omega)]
        have hvc := validate_root_complete ht _ d0 INT_MIN INT_MAX hcsh.2
          (by rw [← htrav', htrav]; exact hko)
        exact decide_eq_true (by rw [hvc]; omega)
    · have hdel : btree_delete tree key
          = ⟨delete_internal tree.root key tree.t, tree.t⟩ := by
        unfold btree_delete
        rw [if_neg h0]
        simp only []
        rw [if_neg hrep]
      constructor
      · rw [hdel]
        show count_node _ = count_node tree.root
        rw [count_node_eq_trav_length tree.t d _ hS', htrav, hcount_old]
      · rw [hdel]
        unfold btree_validate
        simp only [root_mk, t_mk]
        by_cases hz : (delete_internal tree.root key tree.t).n = 0 ∧
            (delete_internal tree.root key tree.t).is_leaf = true
        · rw [if_pos hz]
        · rw [if_neg hz]
          have hvc := validate_root_complete ht _ d INT_MIN INT_MAX hS'
            (by rw [htrav]; exact hko)
          exact decide_eq_true (by rw [hvc]; omega)

/-- C7 witness: the validated one-key tree `[5]` at `t = 2` and the
absent key 7. -/
theorem delete_absent_preserves_count_and_validate_witness :
    (2 ≤ (⟨BTreeNode.mk [5] [] true, 2⟩ : BTree).t ∧
      WF (⟨BTreeNode.mk [5] [] true, 2⟩ : BTree).root ∧
      btree_validate ⟨BTreeNode.mk [5] [] true, 2⟩ = true ∧
      (7 : Int) ∉ btree_traverse (⟨BTreeNode.mk [5] [] true, 2⟩ : BTree).root) ∧
    (btree_count (btree_delete ⟨BTreeNode.mk [5] [] true, 2⟩ 7)
        = btree_count ⟨BTreeNode.mk [5] [] true, 2⟩ ∧
      btree_validate (btree_delete ⟨BTreeNode.mk [5] [] true, 2⟩ 7) = true) := by
  have hwf : WF (⟨BTreeNode.mk [5] [] true, 2⟩ : BTree).root := by
    simp [WF, WFL]
  have hv : btree_validate ⟨BTreeNode.mk [5] [] true, 2⟩ = true := by
    simp [btree_validate, validate_node, validate_body, keys_ok, INT_MIN, INT_MAX]
  have hk : (7 : Int) ∉ btree_traverse (⟨BTreeNode.mk [5] [] true, 2⟩ : BTree).root := by
    simp [btree_traverse]
  exact ⟨⟨by decide, hwf, hv, hk⟩,
    delete_absent_preserves_count_and_validate ⟨BTreeNode.mk [5] [] true, 2⟩ 7
      (by decide) hwf hv hk⟩

end BTree
